import Mathlib

/-!
# CPU reducer (`byteps/common/cpu_reducer.cc`)

A shallow embedding of `CpuReducer`: the constructor's peer-collection loop,
the type-dispatched entry point `sum` and its seven kernels.

Modelling conventions.

* Memory is a total map from byte addresses to bytes; `dst` and `src` are
  addresses into the same memory, so aliasing is expressible and "the source is
  not written" is a statement about the code, not about a type.
* A typed array access `d[i]` on a pointer to `w`-byte elements reads or writes
  the `w` bytes at `d + i * w`, little-endian.
* Integer kinds are bit patterns with explicit reduction modulo `2 ^ bits`;
  signed addition that overflows gets the two's-complement result of the
  machine's add instruction.
* The constructor's `int` values are 32-bit (`CInt`); the loop variable's
  `i += pcie_size` wraps around modulo `2 ^ 32` (`wrapInt`), and the loop is run
  with fuel, one unit per evaluation of the loop condition.
* The floating-point adder is a parameter of the kernels (`FloatUnit`), a
  function on bit patterns; `ieee754` is the round-to-nearest-even instance.
* `#pragma omp parallel for simd` is read as the sequential loop it annotates;
  `runOrder` and `Schedule` describe the other orders in which the iterations
  of such a loop can take effect.
* A method call acts on a `Process`: the members of the object and the memory.
-/

namespace CpuReducer

/-! ## Memory -/

/-- One byte of memory. -/
abbrev Byte := Fin 256

/-- Byte-addressed memory. -/
abbrev Mem := Nat → Byte

/-- Little-endian load of `w` bytes starting at address `p`. -/
def loadLE (m : Mem) (p : Nat) : Nat → Nat
  | 0 => 0
  | w + 1 => (m p).val + 256 * loadLE m (p + 1) w

/-- Little-endian store of the low `w` bytes of `v` starting at address `p`. -/
def storeLE (m : Mem) (p w v : Nat) : Mem :=
  fun a => if p ≤ a ∧ a < p + w then Fin.ofNat (v / 256 ^ (a - p)) else m a

/-- Element `i` of the array of `w`-byte elements based at `base`: the C
expression `base[i]` used as a value. -/
def readElem (w : Nat) (m : Mem) (base i : Nat) : Nat :=
  loadLE m (base + i * w) w

/-- The C assignment `base[i] = v` on an array of `w`-byte elements. -/
def writeElem (w : Nat) (m : Mem) (base i v : Nat) : Mem :=
  storeLE m (base + i * w) w v

/-- The loop `for (size_t i = 0; i < n; ++i) body(i)` over the memory state. -/
def forLoop (n : Nat) (body : Nat → Mem → Mem) (m : Mem) : Mem :=
  (List.range n).foldl (fun acc i => body i acc) m

/-- The bytes `m[p], ..., m[p + n - 1]` as a list of numbers. -/
def readBytes (m : Mem) (p n : Nat) : List Nat :=
  (List.range n).map (fun k => (m (p + k)).val)

/-- A memory holding the bytes `bs` from address `0` on and zero elsewhere. -/
def memOfList (bs : List Nat) : Mem :=
  fun a => Fin.ofNat (bs.getD a 0)

/-- Two regions of `len` bytes that do not overlap. -/
def NoOverlap (dst src len : Nat) : Prop :=
  dst + len ≤ src ∨ src + len ≤ dst

instance (dst src len : Nat) : Decidable (NoOverlap dst src len) := by
  unfold NoOverlap; infer_instance

/-! ## Integer arithmetic on bit patterns -/

/-- Value of the `bits`-wide two's-complement pattern `u`. -/
def toSigned (bits : Nat) (u : Nat) : Int :=
  if u < 2 ^ (bits - 1) then (u : Int) else (u : Int) - 2 ^ bits

/-- The `bits`-wide two's-complement pattern of `x` (conversion to the
narrower or equal signed type keeps the low `bits` bits). -/
def ofSigned (bits : Nat) (x : Int) : Nat :=
  (x % 2 ^ bits).toNat

/-- The C expression `a + b` on `unsigned char` operands, converted back to
`unsigned char`. -/
def addUInt8 (a b : Nat) : Nat := (a + b) % 256

/-- The C expression `a + b` on signed operands of `bits` bits, with the
native wraparound result. -/
def addSigned (bits : Nat) (a b : Nat) : Nat :=
  ofSigned bits (toSigned bits a + toSigned bits b)

/-! ## Floating-point arithmetic on bit patterns -/

/-- A binary interchange format: exponent and fraction field widths. -/
structure Fmt where
  ebits : Nat
  mbits : Nat

def binary32 : Fmt := ⟨8, 23⟩

def binary64 : Fmt := ⟨11, 52⟩

namespace Fmt

def width (f : Fmt) : Nat := 1 + f.ebits + f.mbits

def signOf (f : Fmt) (x : Nat) : Nat := x / 2 ^ (f.ebits + f.mbits) % 2

def expOf (f : Fmt) (x : Nat) : Nat := x / 2 ^ f.mbits % 2 ^ f.ebits

def fracOf (f : Fmt) (x : Nat) : Nat := x % 2 ^ f.mbits

/-- The all-ones exponent field (infinities and NaNs). -/
def emax (f : Fmt) : Nat := 2 ^ f.ebits - 1

def isNaN (f : Fmt) (x : Nat) : Bool := f.expOf x == f.emax && f.fracOf x != 0

def isInf (f : Fmt) (x : Nat) : Bool := f.expOf x == f.emax && f.fracOf x == 0

def pack (f : Fmt) (s e m : Nat) : Nat :=
  s * 2 ^ (f.ebits + f.mbits) + e * 2 ^ f.mbits + m

/-- Exponent of a finite pattern with subnormals placed at exponent `1`. -/
def expo (f : Fmt) (x : Nat) : Nat := max (f.expOf x) 1

/-- Significand of a finite pattern, hidden bit included. -/
def sig (f : Fmt) (x : Nat) : Nat :=
  if f.expOf x = 0 then f.fracOf x else 2 ^ f.mbits + f.fracOf x

/-- Number of binary digits of `t`, computed with `fuel` steps. -/
def bitLen : Nat → Nat → Nat
  | 0, _ => 0
  | fuel + 1, t => if t = 0 then 0 else bitLen fuel (t / 2) + 1

/-- Exponent and significand fields, as one number, of the finite non-zero
magnitude `t * 2 ^ (e - 1)` (in units of the least subnormal, `e ≥ 1`), rounded
to nearest, ties to even; `n` is the number of binary digits of `t`. A carry
out of the significand lands in the exponent field. -/
def roundBits (f : Fmt) (e t n : Nat) : Nat :=
  if n ≤ f.mbits + 1 then
    let sl := min (f.mbits + 1 - n) (e - 1)
    (e - sl - 1) * 2 ^ f.mbits + t * 2 ^ sl
  else
    let sh := n - (f.mbits + 1)
    let q := t / 2 ^ sh
    let r := t % 2 ^ sh
    let half := 2 ^ (sh - 1)
    let q1 := if half < r ∨ (r = half ∧ q % 2 = 1) then q + 1 else q
    (e + sh - 1) * 2 ^ f.mbits + q1

/-- Attaches the sign `s`; a rounded magnitude beyond the largest finite one
becomes infinity. -/
def finish (f : Fmt) (s bits : Nat) : Nat :=
  if f.emax * 2 ^ f.mbits ≤ bits then f.pack s f.emax 0
  else s * 2 ^ (f.ebits + f.mbits) + bits

/-- Encodes the finite non-zero magnitude `t * 2 ^ (e - 1)` with sign `s`. -/
def encode (f : Fmt) (s e t n : Nat) : Nat :=
  f.finish s (f.roundBits e t n)

/-- Addition of two bit patterns of format `f`: round to nearest, ties to
even; a NaN operand is returned quieted; `∞ - ∞` is the default NaN. -/
def add (f : Fmt) (a b : Nat) : Nat :=
  if f.isNaN a then a ||| 2 ^ (f.mbits - 1)
  else if f.isNaN b then b ||| 2 ^ (f.mbits - 1)
  else if f.isInf a then
    if f.isInf b && f.signOf a != f.signOf b then f.pack 1 f.emax (2 ^ (f.mbits - 1)) else a
  else if f.isInf b then b
  else
    let e := min (f.expo a) (f.expo b)
    let ma : Int := (f.sig a * 2 ^ (f.expo a - e) : Nat)
    let mb : Int := (f.sig b * 2 ^ (f.expo b - e) : Nat)
    let t : Int := (if f.signOf a = 1 then -ma else ma) + (if f.signOf b = 1 then -mb else mb)
    if t = 0 then (if f.signOf a = 1 ∧ f.signOf b = 1 then f.pack 1 0 0 else 0)
    else
      let n := bitLen (f.expo a + f.expo b + f.mbits + 2) t.natAbs
      f.encode (if t < 0 then 1 else 0) e t.natAbs n

end Fmt

/-- The floating-point adder the kernels run on, as functions on bit patterns:
`add32` is `+` on `float`, `add64` is `+` on `double`. Results fit the width. -/
structure FloatUnit where
  add32 : Nat → Nat → Nat
  add64 : Nat → Nat → Nat
  add32_lt : ∀ a b, add32 a b < 2 ^ 32
  add64_lt : ∀ a b, add64 a b < 2 ^ 64

/-- The adder of IEEE 754 binary32 and binary64 in the default rounding mode;
the reduction to the width is the identity on patterns of that width
(`binary32_add_lt`, `binary64_add_lt`). -/
def ieee754 : FloatUnit where
  add32 a b := binary32.add a b % 2 ^ 32
  add64 a b := binary64.add a b % 2 ^ 64
  add32_lt _ _ := Nat.mod_lt _ (Nat.two_pow_pos 32)
  add64_lt _ _ := Nat.mod_lt _ (Nat.two_pow_pos 64)

/-! ## The kernels -/

/-- Modelled from the spec: the enumeration `DataType` is declared outside the
source file; the seven kinds `sum` dispatches on are its named members, and
`other code` stands for every other value a `DataType` variable can hold. -/
inductive DataType where
  | BYTEPS_FLOAT32
  | BYTEPS_FLOAT64
  | BYTEPS_FLOAT16
  | BYTEPS_UINT8
  | BYTEPS_INT32
  | BYTEPS_INT8
  | BYTEPS_INT64
  | other (code : Int)
  deriving DecidableEq, Repr

/-- How a call of `sum` ends: it returns a status, or the process is terminated
by a failed check whose diagnostic names the offending type. Both carry the
memory as the call left it. -/
inductive Outcome where
  | returned (status : Int) (m : Mem)
  | fatal (dtype : DataType) (m : Mem)

/-- Memory at the end of the call. -/
def Outcome.mem : Outcome → Mem
  | .returned _ m => m
  | .fatal _ m => m

/-- Status returned to the caller, if the call returns. -/
def Outcome.status : Outcome → Option Int
  | .returned s _ => some s
  | .fatal _ _ => none

/-- Modelled from the spec: the macro `BPS_CHECK` is defined outside the source
file; a failed check terminates the process with the streamed diagnostic (here:
"Unsupported data type: " followed by the type value), otherwise execution
continues with `rest`. -/
def BPS_CHECK (cond : Bool) (dtype : DataType) (m : Mem) (rest : Outcome) : Outcome :=
  if cond then rest else Outcome.fatal dtype m

def _sum_float32 (F : FloatUnit) (m : Mem) (dst src len : Nat) : Int × Mem :=
  (0, forLoop (len / 4) (fun i m =>
    writeElem 4 m dst i (F.add32 (readElem 4 m dst i) (readElem 4 m src i))) m)

def _sum_float64 (F : FloatUnit) (m : Mem) (dst src len : Nat) : Int × Mem :=
  (0, forLoop (len / 8) (fun i m =>
    writeElem 8 m dst i (F.add64 (readElem 8 m dst i) (readElem 8 m src i))) m)

/-- The source casts both pointers to `float*` and runs `len / 4` iterations. -/
def _sum_float16 (F : FloatUnit) (m : Mem) (dst src len : Nat) : Int × Mem :=
  (0, forLoop (len / 4) (fun i m =>
    writeElem 4 m dst i (F.add32 (readElem 4 m dst i) (readElem 4 m src i))) m)

def _sum_unit8 (m : Mem) (dst src len : Nat) : Int × Mem :=
  (0, forLoop len (fun i m =>
    writeElem 1 m dst i (addUInt8 (readElem 1 m dst i) (readElem 1 m src i))) m)

def _sum_int32 (m : Mem) (dst src len : Nat) : Int × Mem :=
  (0, forLoop (len / 4) (fun i m =>
    writeElem 4 m dst i (addSigned 32 (readElem 4 m dst i) (readElem 4 m src i))) m)

def _sum_int8 (m : Mem) (dst src len : Nat) : Int × Mem :=
  (0, forLoop len (fun i m =>
    writeElem 1 m dst i (addSigned 8 (readElem 1 m dst i) (readElem 1 m src i))) m)

def _sum_int64 (m : Mem) (dst src len : Nat) : Int × Mem :=
  (0, forLoop (len / 8) (fun i m =>
    writeElem 8 m dst i (addSigned 64 (readElem 8 m dst i) (readElem 8 m src i))) m)

/-- A kernel's `return` as the outcome of `sum`. -/
def Outcome.ofKernel (r : Int × Mem) : Outcome := Outcome.returned r.1 r.2

/-- The entry point `CpuReducer::sum`. -/
def sum (F : FloatUnit) (m : Mem) (dst src len : Nat) (dtype : DataType) : Outcome :=
  match dtype with
  | .BYTEPS_FLOAT32 => Outcome.ofKernel (_sum_float32 F m dst src len)
  | .BYTEPS_FLOAT64 => Outcome.ofKernel (_sum_float64 F m dst src len)
  | .BYTEPS_FLOAT16 => Outcome.ofKernel (_sum_float16 F m dst src len)
  | .BYTEPS_UINT8 => Outcome.ofKernel (_sum_unit8 m dst src len)
  | .BYTEPS_INT32 => Outcome.ofKernel (_sum_int32 m dst src len)
  | .BYTEPS_INT8 => Outcome.ofKernel (_sum_int8 m dst src len)
  | .BYTEPS_INT64 => Outcome.ofKernel (_sum_int64 m dst src len)
  | .other code => BPS_CHECK false (.other code) m (Outcome.returned 0 m)

/-- Whether `sum` has a kernel for the kind. -/
def DataType.supported : DataType → Bool
  | .other _ => false
  | _ => true

/-- Width in bytes of an element of the kind itself (`sizeof(T)`); a 16-bit
float is two bytes wide. -/
def DataType.sizeOfT : DataType → Nat
  | .BYTEPS_FLOAT32 => 4
  | .BYTEPS_FLOAT64 => 8
  | .BYTEPS_FLOAT16 => 2
  | .BYTEPS_UINT8 => 1
  | .BYTEPS_INT32 => 4
  | .BYTEPS_INT8 => 1
  | .BYTEPS_INT64 => 8
  | .other _ => 1

/-- Width in bytes of the elements the kernel selected for the kind works on:
the pointer type of its casts. -/
def DataType.kernelWidth : DataType → Nat
  | .BYTEPS_FLOAT32 => 4
  | .BYTEPS_FLOAT64 => 8
  | .BYTEPS_FLOAT16 => 4
  | .BYTEPS_UINT8 => 1
  | .BYTEPS_INT32 => 4
  | .BYTEPS_INT8 => 1
  | .BYTEPS_INT64 => 8
  | .other _ => 1

/-- The element operation of the kernel selected for the kind. -/
def DataType.kernelOp (F : FloatUnit) : DataType → Nat → Nat → Nat
  | .BYTEPS_FLOAT32 => F.add32
  | .BYTEPS_FLOAT64 => F.add64
  | .BYTEPS_FLOAT16 => F.add32
  | .BYTEPS_UINT8 => addUInt8
  | .BYTEPS_INT32 => addSigned 32
  | .BYTEPS_INT8 => addSigned 8
  | .BYTEPS_INT64 => addSigned 64
  | .other _ => fun a _ => a

/-- The loop shared by the seven kernels: `n` iterations of
`d[i] = d[i] + s[i]` on `w`-byte elements with the element addition `op`. -/
def elementwise (w : Nat) (op : Nat → Nat → Nat) (dst src n : Nat) (m : Mem) : Mem :=
  forLoop n (fun i m =>
    writeElem w m dst i (op (readElem w m dst i) (readElem w m src i))) m

/-- The `w` little-endian bytes of the pattern `v`. -/
def bytesOf (w v : Nat) : List Nat :=
  (List.range w).map (fun k => v / 256 ^ k % 256)

/-- A memory holding the `w`-byte elements `vs` from address `0` on. -/
def memOfElems (w : Nat) (vs : List Nat) : Mem :=
  memOfList ((vs.map (bytesOf w)).flatten)

/-- The elements `base[0], ..., base[n - 1]` of an array of `w`-byte elements. -/
def readElems (w : Nat) (m : Mem) (base n : Nat) : List Nat :=
  (List.range n).map (fun i => readElem w m base i)

/-- Element `i` of an array of signed integers of `bits` bits, as a number. -/
def signedElem (bits : Nat) (m : Mem) (base i : Nat) : Int :=
  toSigned bits (readElem (bits / 8) m base i)

/-- IEEE 754 binary16, the format of a 16-bit float. -/
def binary16 : Fmt := ⟨5, 10⟩

/-- The seven kinds `sum` has a `case` for. -/
def supportedKinds : List DataType :=
  [DataType.BYTEPS_FLOAT32, DataType.BYTEPS_FLOAT64, DataType.BYTEPS_FLOAT16,
    DataType.BYTEPS_UINT8, DataType.BYTEPS_INT32, DataType.BYTEPS_INT8,
    DataType.BYTEPS_INT64]

/-- The four integer kinds. -/
def integerKinds : List DataType :=
  [DataType.BYTEPS_UINT8, DataType.BYTEPS_INT8, DataType.BYTEPS_INT32,
    DataType.BYTEPS_INT64]

/-! ## The constructor -/

/-- Modelled from the spec: the communicator collaborator is declared outside
the source file. The handle passed to the constructor decides the root of a
sub-communicator from its member list. -/
structure BytePSComm where
  rootOf : List Int → Int

/-- Modelled from the spec: the locality-scoped sub-communicator built over a
peer set (with the fixed label "cpu"); it reports a root. -/
structure BytePSCommSocket where
  members : List Int
  root : Int

/-- The members `CpuReducer` holds: `_comm` and `_num_threads`. -/
structure State where
  _comm : BytePSCommSocket
  _num_threads : Nat

/-- A value of the C type `int`: 32 bits, two's complement. -/
structure CInt where
  val : Int
  ge : -2147483648 ≤ val
  le : val ≤ 2147483647

/-- The `int` left by an addition whose exact result is `x`: the result reduced
modulo `2 ^ 32` into the range of the type, as the machine's add instruction
leaves it. -/
def wrapInt (x : Int) : Int :=
  (x + 2147483648) % 4294967296 - 2147483648

/-- Why a run of the constructor yields no object. -/
inductive CtorError where
  | moduloByZero
  | remainderOverflow
  | outOfFuel
  deriving DecidableEq, Repr

/-- The loop `for (int i = ...; i < local_size; i += pcie_size) peers.push_back(i)`
from the state (`i`, `peers`), with the 32-bit addition `i += pcie_size`, run
for at most `fuel` evaluations of the loop condition. -/
def peersLoop (pcie_size local_size : Int) : Nat → Int → List Int → Option (List Int)
  | 0, _, _ => none
  | fuel + 1, i, peers =>
    if i < local_size then
      peersLoop pcie_size local_size fuel (wrapInt (i + pcie_size)) (peers ++ [i])
    else some peers

/-- The peer list the constructor builds; `pcie_size`, `local_rank` and
`local_size` are the `int` values `GetPcieSwitchSize`, `GetLocalRank` and
`GetLocalSize` return. The remainder `%` truncates towards zero; it is
undefined for a zero divisor and for `INT_MIN % -1`. -/
def peerList (fuel : Nat) (pcie_size local_rank local_size : CInt) :
    Except CtorError (List Int) :=
  if pcie_size.val = 0 then Except.error CtorError.moduloByZero
  else if local_rank.val = -2147483648 ∧ pcie_size.val = -1 then
    Except.error CtorError.remainderOverflow
  else
    match peersLoop pcie_size.val local_size.val fuel
        (Int.tmod local_rank.val pcie_size.val) [] with
    | none => Except.error CtorError.outOfFuel
    | some peers => Except.ok peers

/-- The constructor `CpuReducer::CpuReducer`; `threads` is the constant
`BYTEPS_CPU_REDUCER_THREADS`. -/
def CpuReducer (fuel : Nat) (comm : BytePSComm) (pcie_size local_rank local_size : CInt)
    (threads : Nat) : Except CtorError State :=
  match peerList fuel pcie_size local_rank local_size with
  | Except.error e => Except.error e
  | Except.ok peers => Except.ok ⟨⟨peers, comm.rootOf peers⟩, threads⟩

/-- Number of iterations of the constructor's loop entered at `i`, for a
positive step `d` and bound `n`: `⌈(n - i) / d⌉` when `i < n`, else `0`. -/
def iterations (d n i : Int) : Nat :=
  ((n - i + d - 1) / d).toNat

/-- The list `i, i + d, ..., i + (k - 1) * d`. -/
def progression (d i : Int) (k : Nat) : List Int :=
  (List.range k).map (fun (j : Nat) => i + d * (j : Int))

/-- The loop variable stays within `int`: the value it has when the loop is
left, `r mod d + k * d` with `k` the iteration count, is at most `INT_MAX`. -/
def LoopFits (d r n : Int) : Prop :=
  r % d + d * (iterations d n (r % d) : Int) ≤ 2147483647

instance (d r n : Int) : Decidable (LoopFits d r n) := by
  unfold LoopFits; infer_instance

/-! ## Method calls on the object -/

/-- Modelled from the spec: `BytePSCommSocket::getRoot` is declared outside the
source file; it reports the root identifier of the sub-communicator and has no
effect on any state. -/
def BytePSCommSocket.getRoot (c : BytePSCommSocket) : Int := c.root

/-- What a method of `CpuReducer` acts on: the members of the object and the
memory. -/
structure Process where
  self : State
  mem : Mem

/-- The method `CpuReducer::isRoot` with the state it leaves; `local_rank` is
what `GetLocalRank` returns. The body is a single `return` of a comparison. -/
def isRoot (local_rank : Int) (p : Process) : Bool × Process :=
  (p.self._comm.getRoot == local_rank, p)

/-- The method `CpuReducer::sum` called on the object: the status and the state
it leaves, or nothing when the failed check has terminated the process. Neither
`sum` nor a kernel assigns a member; `_num_threads` is only read, by the
`num_threads` clause. -/
def sumCall (F : FloatUnit) (p : Process) (dst src len : Nat) (dtype : DataType) :
    Option (Int × Process) :=
  match sum F p.mem dst src len dtype with
  | Outcome.returned status m => some (status, ⟨p.self, m⟩)
  | Outcome.fatal _ _ => none

/-- A call of one of the two public methods. -/
inductive Call where
  | isRoot
  | sum (dst src len : Nat) (dtype : DataType)

/-- The state after one call, or nothing when the process was terminated. -/
def Process.call (F : FloatUnit) (local_rank : Int) (p : Process) : Call → Option Process
  | Call.isRoot => some (isRoot local_rank p).2
  | Call.sum dst src len dtype => (sumCall F p dst src len dtype).map (fun r => r.2)

/-- The state after a sequence of calls, or nothing when one of them terminated
the process. -/
def Process.run (F : FloatUnit) (local_rank : Int) : Process → List Call → Option Process
  | p, [] => some p
  | p, c :: cs =>
    match p.call F local_rank c with
    | none => none
    | some p2 => Process.run F local_rank p2 cs

/-! ## Iterations in any order -/

/-- One iteration of a kernel loop, `d[i] = d[i] + s[i]`, on `w`-byte elements
with the element addition `op`. -/
def iteration (w : Nat) (op : Nat → Nat → Nat) (dst src i : Nat) (m : Mem) : Mem :=
  writeElem w m dst i (op (readElem w m dst i) (readElem w m src i))

/-- The iterations `body i` taking effect one after the other in the listed
order. -/
def runOrder (order : List Nat) (body : Nat → Mem → Mem) (m : Mem) : Mem :=
  order.foldl (fun acc i => body i acc) m

/-- An execution of the `n` iterations of a parallel loop by `threads`
workers: every index is run exactly once, by one worker, and `order` is the
order in which the iterations take effect. -/
structure Schedule (threads n : Nat) where
  order : List Nat
  owner : Nat → Nat
  complete : order.Perm (List.range n)
  owned : ∀ i, i < n → owner i < threads

/-! ## Byte accesses -/

/-- The buffer an access goes to. -/
inductive Buf where
  | destination
  | source
  deriving DecidableEq, Repr

/-- One byte access of a kernel: a read or a write of the byte at `offset` from
the start of a buffer. -/
structure Access where
  isWrite : Bool
  buf : Buf
  offset : Nat
  deriving DecidableEq, Repr

/-- Address of an access, for buffers based at `dst` and `src`. -/
def Access.addr (dst src : Nat) (acc : Access) : Nat :=
  match acc.buf with
  | Buf.destination => dst + acc.offset
  | Buf.source => src + acc.offset

/-- Byte offsets of element `i` of an array of `w`-byte elements. -/
def elemOffsets (w i : Nat) : List Nat :=
  (List.range w).map (fun k => i * w + k)

/-- The byte accesses of one iteration `d[i] = d[i] + s[i]`: the bytes of
`d[i]` and of `s[i]` are read, then the bytes of `d[i]` are written. -/
def iterationAccesses (w i : Nat) : List Access :=
  (elemOffsets w i).map (fun o => Access.mk false Buf.destination o)
    ++ (elemOffsets w i).map (fun o => Access.mk false Buf.source o)
    ++ (elemOffsets w i).map (fun o => Access.mk true Buf.destination o)

/-- The byte accesses of a kernel loop of `n` iterations on `w`-byte elements. -/
def kernelAccesses (w n : Nat) : List Access :=
  (List.range n).flatMap (iterationAccesses w)

/-- The byte accesses of `sum`: those of the kernel of the kind; the fatal
branch runs no kernel. -/
def sumAccesses (len : Nat) (T : DataType) : List Access :=
  if T.supported then kernelAccesses T.kernelWidth (len / T.kernelWidth) else []

/-! ## Memory lemmas -/

theorem loadLE_lt (m : Mem) : ∀ (w p : Nat), loadLE m p w < 256 ^ w := by
  intro w
  induction w with
  | zero => intro p; simp [loadLE]
  | succ w ih =>
    intro p
    have h1 : (m p).val < 256 := (m p).isLt
    have h2 := ih (p + 1)
    simp only [loadLE, pow_succ]
    omega

theorem loadLE_congr (m1 m2 : Mem) : ∀ (w p : Nat),
    (∀ a, p ≤ a → a < p + w → m1 a = m2 a) → loadLE m1 p w = loadLE m2 p w := by
  intro w
  induction w with
  | zero => intro p _; rfl
  | succ w ih =>
    intro p h
    simp only [loadLE]
    rw [h p (Nat.le_refl p) (by omega), ih (p + 1) (fun a ha hb => h a (by omega) (by omega))]

theorem storeLE_outside (m : Mem) (p w v a : Nat) (h : a < p ∨ p + w ≤ a) :
    storeLE m p w v a = m a := by
  unfold storeLE
  rw [if_neg]
  omega

theorem storeLE_inside (m : Mem) (p w v a : Nat) (h1 : p ≤ a) (h2 : a < p + w) :
    (storeLE m p w v a).val = v / 256 ^ (a - p) % 256 := by
  unfold storeLE
  rw [if_pos ⟨h1, h2⟩]
  rfl

theorem loadLE_storeLE_within (m : Mem) (p W v : Nat) : ∀ (w q : Nat),
    p ≤ q → q + w ≤ p + W →
    loadLE (storeLE m p W v) q w = v / 256 ^ (q - p) % 256 ^ w := by
  intro w
  induction w with
  | zero => intro q _ _; simp [loadLE, Nat.mod_one]
  | succ w ih =>
    intro q h1 h2
    simp only [loadLE]
    rw [storeLE_inside m p W v q h1 (by omega), ih (q + 1) (by omega) (by omega)]
    have e : q + 1 - p = (q - p) + 1 := by omega
    rw [e, pow_succ 256 (q - p), ← Nat.div_div_eq_div_mul, pow_succ 256 w,
      Nat.mul_comm (256 ^ w) 256, Nat.mod_mul]

theorem loadLE_storeLE_same (m : Mem) (p w v : Nat) :
    loadLE (storeLE m p w v) p w = v % 256 ^ w := by
  have h := loadLE_storeLE_within m p w v w p (Nat.le_refl p) (Nat.le_refl _)
  simpa using h

theorem loadLE_storeLE_disjoint (m : Mem) (p w v q w2 : Nat) (h : q + w2 ≤ p ∨ p + w ≤ q) :
    loadLE (storeLE m p w v) q w2 = loadLE m q w2 := by
  apply loadLE_congr
  intro a ha hb
  apply storeLE_outside
  omega

theorem forLoop_zero (body : Nat → Mem → Mem) (m : Mem) : forLoop 0 body m = m := rfl

theorem forLoop_succ (n : Nat) (body : Nat → Mem → Mem) (m : Mem) :
    forLoop (n + 1) body m = body n (forLoop n body m) := by
  simp [forLoop, List.range_succ, List.foldl_append]

/-! ## The shared loop -/

theorem NoOverlap.mono {dst src len len2 : Nat} (h : NoOverlap dst src len) (hle : len2 ≤ len) :
    NoOverlap dst src len2 := by
  unfold NoOverlap at *
  omega

/-- The loop writes only inside the first `n` elements of the destination. -/
theorem elementwise_outside (w : Nat) (op : Nat → Nat → Nat) (dst src : Nat) (m : Mem) :
    ∀ (n a : Nat), a < dst ∨ dst + n * w ≤ a → elementwise w op dst src n m a = m a := by
  intro n
  induction n with
  | zero => intro a _; rfl
  | succ n ih =>
    intro a h
    have e : (n + 1) * w = n * w + w := Nat.succ_mul n w
    unfold elementwise at *
    rw [forLoop_succ]
    simp only [writeElem]
    rw [storeLE_outside _ _ _ _ _ (by omega)]
    exact ih a (by omega)

/-- After the loop, each of the first `n` destination elements holds the
element sum of the two original elements, when the regions do not overlap. -/
theorem elementwise_elem (w : Nat) (op : Nat → Nat → Nat) (dst src : Nat) (m : Mem) :
    ∀ (n : Nat), NoOverlap dst src (n * w) → ∀ i, i < n →
      readElem w (elementwise w op dst src n m) dst i
        = op (readElem w m dst i) (readElem w m src i) % 256 ^ w := by
  intro n
  induction n with
  | zero => intro _ i hi; omega
  | succ n ih =>
    intro hdis i hi
    have e : (n + 1) * w = n * w + w := Nat.succ_mul n w
    have hstep : elementwise w op dst src (n + 1) m
        = writeElem w (elementwise w op dst src n m) dst n
            (op (readElem w (elementwise w op dst src n m) dst n)
              (readElem w (elementwise w op dst src n m) src n)) := by
      unfold elementwise
      rw [forLoop_succ]
    rw [hstep]
    by_cases hin : i < n
    · have hiw : i * w + w ≤ n * w := by
        have := Nat.mul_le_mul_right w (Nat.succ_le_of_lt hin)
        rwa [Nat.succ_mul] at this
      simp only [writeElem, readElem]
      rw [loadLE_storeLE_disjoint _ _ _ _ _ _ (by omega)]
      exact ih (hdis.mono (by omega)) i hin
    · have hi2 : i = n := by omega
      subst hi2
      simp only [writeElem, readElem]
      rw [loadLE_storeLE_same]
      have hd : loadLE (elementwise w op dst src i m) (dst + i * w) w
          = loadLE m (dst + i * w) w := by
        apply loadLE_congr
        intro a ha _
        exact elementwise_outside w op dst src m i a (by omega)
      have hs : loadLE (elementwise w op dst src i m) (src + i * w) w
          = loadLE m (src + i * w) w := by
        apply loadLE_congr
        intro a ha hb
        apply elementwise_outside w op dst src m i a
        unfold NoOverlap at hdis
        omega
      rw [hd, hs]

/-! ## The dispatch -/

theorem sum_supported (F : FloatUnit) (m : Mem) (dst src len : Nat) (T : DataType)
    (hT : T.supported = true) :
    sum F m dst src len T
      = Outcome.returned 0
          (elementwise T.kernelWidth (T.kernelOp F) dst src (len / T.kernelWidth) m) := by
  cases T <;>
    simp [sum, Outcome.ofKernel, _sum_float32, _sum_float64, _sum_float16, _sum_unit8,
      _sum_int32, _sum_int8, _sum_int64, elementwise, DataType.kernelWidth,
      DataType.kernelOp, DataType.supported] at hT ⊢

theorem kernelWidth_pos (T : DataType) : 0 < T.kernelWidth := by
  cases T <;> simp [DataType.kernelWidth]

theorem div_mul_kernelWidth_le (len : Nat) (T : DataType) :
    len / T.kernelWidth * T.kernelWidth ≤ len :=
  Nat.div_mul_le_self len T.kernelWidth

theorem ofSigned_lt (bits : Nat) (x : Int) : ofSigned bits x < 2 ^ bits := by
  unfold ofSigned
  have hpos : (0 : Int) < 2 ^ bits := by positivity
  have h1 := Int.emod_lt_of_pos x hpos
  have h0 := Int.emod_nonneg x (ne_of_gt hpos)
  have : ((x % 2 ^ bits).toNat : Int) < ((2 ^ bits : Nat) : Int) := by
    rw [Int.toNat_of_nonneg h0]
    push_cast
    exact h1
  exact_mod_cast this

theorem kernelOp_lt (F : FloatUnit) (T : DataType) (hT : T.supported = true) (a b : Nat)
    (ha : a < 256 ^ T.kernelWidth) (hb : b < 256 ^ T.kernelWidth) :
    T.kernelOp F a b < 256 ^ T.kernelWidth := by
  cases T
  case BYTEPS_FLOAT32 => exact F.add32_lt a b
  case BYTEPS_FLOAT64 => exact F.add64_lt a b
  case BYTEPS_FLOAT16 => exact F.add32_lt a b
  case BYTEPS_UINT8 =>
    simp only [DataType.kernelOp, DataType.kernelWidth, addUInt8]
    omega
  case BYTEPS_INT32 => exact ofSigned_lt 32 _
  case BYTEPS_INT8 => exact ofSigned_lt 8 _
  case BYTEPS_INT64 => exact ofSigned_lt 64 _
  case other c => simp [DataType.supported] at hT

/-- Every supported kind: element `i` of the destination, read at the kernel's
element width, is the kernel's element sum of the original elements. -/
theorem sum_elem (F : FloatUnit) (m : Mem) (dst src len : Nat) (T : DataType)
    (hT : T.supported = true) (hdis : NoOverlap dst src len) (i : Nat)
    (hi : i < len / T.kernelWidth) :
    readElem T.kernelWidth (sum F m dst src len T).mem dst i
      = T.kernelOp F (readElem T.kernelWidth m dst i) (readElem T.kernelWidth m src i) := by
  rw [sum_supported F m dst src len T hT]
  simp only [Outcome.mem]
  rw [elementwise_elem _ _ _ _ _ _ (hdis.mono (div_mul_kernelWidth_le len T)) i hi]
  apply Nat.mod_eq_of_lt
  apply kernelOp_lt F T hT
  · exact loadLE_lt m _ _
  · exact loadLE_lt m _ _

/-- Every supported kind: bytes outside the whole elements of the destination
keep their value. -/
theorem sum_outside (F : FloatUnit) (m : Mem) (dst src len : Nat) (T : DataType)
    (a : Nat) (h : a < dst ∨ dst + len / T.kernelWidth * T.kernelWidth ≤ a) :
    (sum F m dst src len T).mem a = m a := by
  by_cases hT : T.supported = true
  · rw [sum_supported F m dst src len T hT]
    exact elementwise_outside _ _ _ _ _ _ a h
  · cases T <;> simp [DataType.supported] at hT
    rfl

/-! ## The IEEE adder stays within the format's width -/

theorem Fmt.emax_mul_lt (f : Fmt) : f.emax * 2 ^ f.mbits < 2 ^ (f.ebits + f.mbits) := by
  unfold Fmt.emax
  rw [pow_add]
  have h1 : 0 < 2 ^ f.ebits := Nat.two_pow_pos _
  have h2 : 0 < 2 ^ f.mbits := Nat.two_pow_pos _
  exact Nat.mul_lt_mul_of_pos_right (by omega) h2

theorem Fmt.two_pow_width (f : Fmt) : 2 ^ f.width = 2 * 2 ^ (f.ebits + f.mbits) := by
  unfold Fmt.width
  rw [Nat.add_assoc, Nat.add_comm 1, pow_succ, Nat.mul_comm]

theorem Fmt.finish_lt (f : Fmt) (s bits : Nat) (hs : s ≤ 1) :
    f.finish s bits < 2 ^ f.width := by
  have h1 := f.emax_mul_lt
  have h2 : s * 2 ^ (f.ebits + f.mbits) ≤ 1 * 2 ^ (f.ebits + f.mbits) :=
    Nat.mul_le_mul_right _ hs
  rw [f.two_pow_width]
  unfold Fmt.finish Fmt.pack
  split <;> omega

theorem Fmt.add_lt (f : Fmt) (hm : 1 ≤ f.mbits) (a b : Nat)
    (ha : a < 2 ^ f.width) (hb : b < 2 ^ f.width) : f.add a b < 2 ^ f.width := by
  have hq : 2 ^ (f.mbits - 1) < 2 ^ f.width :=
    Nat.pow_lt_pow_right (by decide) (by unfold Fmt.width; omega)
  have hnan : f.pack 1 f.emax (2 ^ (f.mbits - 1)) < 2 ^ f.width := by
    have h1 : 0 < 2 ^ f.ebits := Nat.two_pow_pos _
    have h3 : 2 ^ (f.mbits - 1) < 2 ^ f.mbits := Nat.pow_lt_pow_right (by decide) (by omega)
    have h4 : f.emax * 2 ^ f.mbits + 2 ^ f.mbits = 2 ^ (f.ebits + f.mbits) := by
      unfold Fmt.emax
      rw [pow_add, ← Nat.succ_mul]
      congr 1
      omega
    rw [f.two_pow_width]
    unfold Fmt.pack
    omega
  have hz : f.pack 1 0 0 < 2 ^ f.width := by
    rw [f.two_pow_width]
    have h1 : 0 < 2 ^ (f.ebits + f.mbits) := Nat.two_pow_pos _
    unfold Fmt.pack
    omega
  unfold Fmt.add
  dsimp only
  split_ifs <;>
    first
      | exact Nat.or_lt_two_pow ha hq
      | exact Nat.or_lt_two_pow hb hq
      | exact hnan
      | exact ha
      | exact hb
      | exact hz
      | exact Nat.two_pow_pos _
      | exact f.finish_lt _ _ (Nat.le_refl 1)
      | exact f.finish_lt _ _ (Nat.zero_le 1)

theorem binary32_add_lt (a b : Nat) (ha : a < 2 ^ 32) (hb : b < 2 ^ 32) :
    binary32.add a b < 2 ^ 32 :=
  Fmt.add_lt binary32 (by decide) a b ha hb

theorem binary64_add_lt (a b : Nat) (ha : a < 2 ^ 64) (hb : b < 2 ^ 64) :
    binary64.add a b < 2 ^ 64 :=
  Fmt.add_lt binary64 (by decide) a b ha hb

/-! ## Two's-complement wraparound -/

theorem toSigned_addSigned (bits : Nat) (hb : 1 ≤ bits) (a b : Nat) :
    -(2 : Int) ^ (bits - 1) ≤ toSigned bits (addSigned bits a b)
    ∧ toSigned bits (addSigned bits a b) < (2 : Int) ^ (bits - 1)
    ∧ toSigned bits (addSigned bits a b) % 2 ^ bits
        = (toSigned bits a + toSigned bits b) % 2 ^ bits
    ∧ ∀ v : Int, -(2 : Int) ^ (bits - 1) ≤ v → v < (2 : Int) ^ (bits - 1) →
        v % 2 ^ bits = (toSigned bits a + toSigned bits b) % 2 ^ bits →
        v = toSigned bits (addSigned bits a b) := by
  generalize hx : toSigned bits a + toSigned bits b = x
  have hP : (2 : Int) ^ bits = 2 * 2 ^ (bits - 1) := by
    have e : bits = (bits - 1) + 1 := by omega
    conv_lhs => rw [e, pow_succ]
    ring
  have hH : (0 : Int) < 2 ^ (bits - 1) := by positivity
  have hPpos : (0 : Int) < 2 ^ bits := by positivity
  have h0 := Int.emod_nonneg x (ne_of_gt hPpos)
  have h1 := Int.emod_lt_of_pos x hPpos
  have hu : ((ofSigned bits x : Nat) : Int) = x % 2 ^ bits := by
    unfold ofSigned
    exact Int.toNat_of_nonneg h0
  have hr : toSigned bits (addSigned bits a b)
      = if x % 2 ^ bits < 2 ^ (bits - 1) then x % 2 ^ bits else x % 2 ^ bits - 2 ^ bits := by
    unfold addSigned
    rw [hx]
    unfold toSigned
    have hc : (ofSigned bits x < 2 ^ (bits - 1)) ↔ (x % 2 ^ bits < (2 : Int) ^ (bits - 1)) := by
      rw [← hu]
      constructor
      · intro h; exact_mod_cast h
      · intro h; exact_mod_cast h
    by_cases hlt : x % 2 ^ bits < (2 : Int) ^ (bits - 1)
    · rw [if_pos (hc.mpr hlt), if_pos hlt, hu]
    · rw [if_neg (fun h => hlt (hc.mp h)), if_neg hlt, hu]
  have hmod : toSigned bits (addSigned bits a b) % 2 ^ bits = x % 2 ^ bits := by
    rw [hr]
    split
    · exact Int.emod_emod_of_dvd x (dvd_refl _)
    · rw [Int.sub_emod, Int.emod_self, sub_zero, Int.emod_emod_of_dvd _ (dvd_refl _),
        Int.emod_emod_of_dvd x (dvd_refl _)]
  have hlo : -(2 : Int) ^ (bits - 1) ≤ toSigned bits (addSigned bits a b) := by
    rw [hr]; split <;> omega
  have hhi : toSigned bits (addSigned bits a b) < (2 : Int) ^ (bits - 1) := by
    rw [hr]; split <;> omega
  refine ⟨hlo, hhi, hmod, ?_⟩
  intro v hv1 hv2 hv3
  have hd : (2 : Int) ^ bits ∣ v - toSigned bits (addSigned bits a b) := by
    apply Int.dvd_of_emod_eq_zero
    rw [Int.sub_emod, hv3, hmod, sub_self, Int.zero_emod]
  have habs : |v - toSigned bits (addSigned bits a b)| < (2 : Int) ^ bits := by
    rw [abs_lt]
    constructor <;> omega
  have := Int.eq_zero_of_abs_lt_dvd hd habs
  omega

theorem supported_of_mem (T : DataType) (hT : T ∈ supportedKinds) : T.supported = true := by
  cases T <;> simp [supportedKinds, DataType.supported] at hT ⊢

/-! ## Claims about `sum` -/

/-- C1 (evaluation at the failing input): two 16-bit floats `1.0` (pattern
`0x3C00`), one in the destination at address 0 and one in the source at
address 2, reduced with length 2 and the 16-bit float kind. The length holds
one whole 16-bit element, whose sum in binary16 is `2.0` (`0x4000`); the call
returns success and the destination element is still `0x3C00`. -/
theorem sum_float16_two_bytes_not_summed :
    0 < 2 / DataType.sizeOfT DataType.BYTEPS_FLOAT16
    ∧ NoOverlap 0 2 2
    ∧ readElems 2 (memOfElems 2 [0x3C00, 0x3C00]) 0 2 = [0x3C00, 0x3C00]
    ∧ binary16.add 0x3C00 0x3C00 = 0x4000
    ∧ (sum ieee754 (memOfElems 2 [0x3C00, 0x3C00]) 0 2 2 DataType.BYTEPS_FLOAT16).status
        = some 0
    ∧ readElem 2
        (sum ieee754 (memOfElems 2 [0x3C00, 0x3C00]) 0 2 2 DataType.BYTEPS_FLOAT16).mem 0 0
        = 0x3C00 := by
  refine ⟨by decide, by decide, by decide, by decide, rfl, by decide⟩

/-- C2: for the unsigned 8-bit kind and non-overlapping buffers, the call
returns success (no overflow detection) and every destination byte `i < L` is
`(A[i] + B[i]) mod 256`; `A = [250]`, `B = [10]`, `L = 1` gives `A = [4]`. -/
theorem sum_uint8_wraparound (F : FloatUnit) (m : Mem) (dst src L : Nat)
    (hdis : NoOverlap dst src L) :
    (sum F m dst src L DataType.BYTEPS_UINT8).status = some 0
    ∧ (∀ i, i < L →
        ((sum F m dst src L DataType.BYTEPS_UINT8).mem (dst + i)).val
          = ((m (dst + i)).val + (m (src + i)).val) % 256)
    ∧ readBytes (sum ieee754 (memOfList [250, 10]) 0 1 1 DataType.BYTEPS_UINT8).mem 0 1
        = [4] := by
  refine ⟨rfl, ?_, by decide⟩
  intro i hi
  have h := sum_elem F m dst src L DataType.BYTEPS_UINT8 rfl hdis i
    (by simpa [DataType.kernelWidth] using hi)
  simpa [DataType.kernelWidth, DataType.kernelOp, readElem, loadLE, addUInt8] using h

theorem sum_uint8_wraparound_witness :
    NoOverlap 0 1 1
    ∧ ((sum ieee754 (memOfList [250, 10]) 0 1 1 DataType.BYTEPS_UINT8).mem (0 + 0)).val
        = ((memOfList [250, 10] (0 + 0)).val + (memOfList [250, 10] (1 + 0)).val) % 256 :=
  ⟨by decide,
    (sum_uint8_wraparound ieee754 (memOfList [250, 10]) 0 1 1 (by decide)).2.1 0 (by decide)⟩

/-- C3: for the signed kinds int8, int32 and int64 (`w` = 8, 32, 64 bits) and
non-overlapping buffers, the call returns success and every destination
element `i < L / (w / 8)`, read as a signed number, lies in
`[-2^(w-1), 2^(w-1))`, is congruent to `A[i] + B[i]` modulo `2^w`, and is the
only such value. -/
theorem sum_signed_wraparound (F : FloatUnit) (m : Mem) (dst src L : Nat)
    (T : DataType) (w : Nat)
    (hT : (T, w) ∈ [(DataType.BYTEPS_INT8, 8), (DataType.BYTEPS_INT32, 32),
      (DataType.BYTEPS_INT64, 64)])
    (hdis : NoOverlap dst src L) :
    (sum F m dst src L T).status = some 0
    ∧ ∀ i, i < L / (w / 8) →
        -(2 : Int) ^ (w - 1) ≤ signedElem w (sum F m dst src L T).mem dst i
        ∧ signedElem w (sum F m dst src L T).mem dst i < (2 : Int) ^ (w - 1)
        ∧ signedElem w (sum F m dst src L T).mem dst i % 2 ^ w
            = (signedElem w m dst i + signedElem w m src i) % 2 ^ w
        ∧ ∀ v : Int, -(2 : Int) ^ (w - 1) ≤ v → v < (2 : Int) ^ (w - 1) →
            v % 2 ^ w = (signedElem w m dst i + signedElem w m src i) % 2 ^ w →
            v = signedElem w (sum F m dst src L T).mem dst i := by
  simp only [List.mem_cons, Prod.mk.injEq, List.mem_singleton, List.not_mem_nil,
    or_false] at hT
  rcases hT with ⟨rfl, rfl⟩ | ⟨rfl, rfl⟩ | ⟨rfl, rfl⟩
  · refine ⟨rfl, fun i hi => ?_⟩
    have h := sum_elem F m dst src L DataType.BYTEPS_INT8 rfl hdis i hi
    unfold signedElem
    rw [show (8 : Nat) / 8 = DataType.kernelWidth DataType.BYTEPS_INT8 from rfl, h]
    exact toSigned_addSigned 8 (by decide) _ _
  · refine ⟨rfl, fun i hi => ?_⟩
    have h := sum_elem F m dst src L DataType.BYTEPS_INT32 rfl hdis i hi
    unfold signedElem
    rw [show (32 : Nat) / 8 = DataType.kernelWidth DataType.BYTEPS_INT32 from rfl, h]
    exact toSigned_addSigned 32 (by decide) _ _
  · refine ⟨rfl, fun i hi => ?_⟩
    have h := sum_elem F m dst src L DataType.BYTEPS_INT64 rfl hdis i hi
    unfold signedElem
    rw [show (64 : Nat) / 8 = DataType.kernelWidth DataType.BYTEPS_INT64 from rfl, h]
    exact toSigned_addSigned 64 (by decide) _ _

theorem sum_signed_wraparound_witness :
    NoOverlap 0 4 4
    ∧ (sum ieee754 (memOfElems 4 [0x7FFFFFFF, 1]) 0 4 4 DataType.BYTEPS_INT32).status = some 0
    ∧ signedElem 32 (memOfElems 4 [0x7FFFFFFF, 1]) 0 0 = 2147483647
    ∧ signedElem 32 (memOfElems 4 [0x7FFFFFFF, 1]) 4 0 = 1
    ∧ signedElem 32
        (sum ieee754 (memOfElems 4 [0x7FFFFFFF, 1]) 0 4 4 DataType.BYTEPS_INT32).mem 0 0
        = -2147483648
    ∧ signedElem 32
        (sum ieee754 (memOfElems 4 [0x7FFFFFFF, 1]) 0 4 4 DataType.BYTEPS_INT32).mem 0 0
          % 2 ^ 32
        = (signedElem 32 (memOfElems 4 [0x7FFFFFFF, 1]) 0 0
            + signedElem 32 (memOfElems 4 [0x7FFFFFFF, 1]) 4 0) % 2 ^ 32 :=
  ⟨by decide, rfl, by decide, by decide, by decide,
    ((sum_signed_wraparound ieee754 (memOfElems 4 [0x7FFFFFFF, 1]) 0 4 4
      DataType.BYTEPS_INT32 32 (by simp) (by decide)).2 0 (by decide)).2.2.1⟩

/-- C4: for the 32-bit and the 64-bit float kind and non-overlapping buffers,
the call returns success, every destination element below `L / width` is the
floating-point sum of the two original elements, and no byte from offset
`(L / width) * width` on is changed, so `L / width` elements are processed.
With the IEEE adder, `A = [1.0, 2.0, 3.0, 4.0]`, `B = [10.0, 20.0, 30.0, 40.0]`,
`L = 16` gives `A = [11.0, 22.0, 33.0, 44.0]` (as binary32 patterns). -/
theorem sum_float_elementwise (F : FloatUnit) (m : Mem) (dst src L : Nat)
    (hdis : NoOverlap dst src L) :
    ((sum F m dst src L DataType.BYTEPS_FLOAT32).status = some 0
      ∧ (∀ i, i < L / 4 →
          readElem 4 (sum F m dst src L DataType.BYTEPS_FLOAT32).mem dst i
            = F.add32 (readElem 4 m dst i) (readElem 4 m src i))
      ∧ (∀ a, dst + L / 4 * 4 ≤ a →
          (sum F m dst src L DataType.BYTEPS_FLOAT32).mem a = m a))
    ∧ ((sum F m dst src L DataType.BYTEPS_FLOAT64).status = some 0
      ∧ (∀ i, i < L / 8 →
          readElem 8 (sum F m dst src L DataType.BYTEPS_FLOAT64).mem dst i
            = F.add64 (readElem 8 m dst i) (readElem 8 m src i))
      ∧ (∀ a, dst + L / 8 * 8 ≤ a →
          (sum F m dst src L DataType.BYTEPS_FLOAT64).mem a = m a))
    ∧ readElems 4
        (sum ieee754
          (memOfElems 4 [0x3F800000, 0x40000000, 0x40400000, 0x40800000,
            0x41200000, 0x41A00000, 0x41F00000, 0x42200000])
          0 16 16 DataType.BYTEPS_FLOAT32).mem 0 4
        = [0x41300000, 0x41B00000, 0x42040000, 0x42300000] := by
  refine ⟨⟨rfl, ?_, ?_⟩, ⟨rfl, ?_, ?_⟩, by decide⟩
  · intro i hi
    exact sum_elem F m dst src L DataType.BYTEPS_FLOAT32 rfl hdis i hi
  · intro a ha
    exact sum_outside F m dst src L DataType.BYTEPS_FLOAT32 a (Or.inr ha)
  · intro i hi
    exact sum_elem F m dst src L DataType.BYTEPS_FLOAT64 rfl hdis i hi
  · intro a ha
    exact sum_outside F m dst src L DataType.BYTEPS_FLOAT64 a (Or.inr ha)

theorem sum_float_elementwise_witness :
    NoOverlap 0 16 16
    ∧ readElem 4
        (sum ieee754
          (memOfElems 4 [0x3F800000, 0x40000000, 0x40400000, 0x40800000,
            0x41200000, 0x41A00000, 0x41F00000, 0x42200000])
          0 16 16 DataType.BYTEPS_FLOAT32).mem 0 3
        = ieee754.add32
            (readElem 4
              (memOfElems 4 [0x3F800000, 0x40000000, 0x40400000, 0x40800000,
                0x41200000, 0x41A00000, 0x41F00000, 0x42200000]) 0 3)
            (readElem 4
              (memOfElems 4 [0x3F800000, 0x40000000, 0x40400000, 0x40800000,
                0x41200000, 0x41A00000, 0x41F00000, 0x42200000]) 16 3) :=
  ⟨by decide,
    (sum_float_elementwise ieee754 _ 0 16 16 (by decide)).1.2.1 3 (by decide)⟩

/-- C5: with the 16-bit float kind, `sum` ends exactly as with the 32-bit float
kind on the same inputs (same memory, same status): it returns success, for
non-overlapping buffers it sums `L / 4` four-byte elements with the 32-bit
adder, and it changes no byte outside those elements. -/
theorem sum_float16_is_float32 (F : FloatUnit) (m : Mem) (dst src L : Nat) :
    sum F m dst src L DataType.BYTEPS_FLOAT16 = sum F m dst src L DataType.BYTEPS_FLOAT32
    ∧ (sum F m dst src L DataType.BYTEPS_FLOAT16).status = some 0
    ∧ (NoOverlap dst src L → ∀ i, i < L / 4 →
        readElem 4 (sum F m dst src L DataType.BYTEPS_FLOAT16).mem dst i
          = F.add32 (readElem 4 m dst i) (readElem 4 m src i))
    ∧ (∀ a, a < dst ∨ dst + L / 4 * 4 ≤ a →
        (sum F m dst src L DataType.BYTEPS_FLOAT16).mem a = m a) := by
  refine ⟨rfl, rfl, ?_, ?_⟩
  · intro hdis i hi
    exact sum_elem F m dst src L DataType.BYTEPS_FLOAT16 rfl hdis i hi
  · intro a ha
    exact sum_outside F m dst src L DataType.BYTEPS_FLOAT16 a ha

theorem sum_float16_is_float32_witness :
    NoOverlap 0 4 4
    ∧ readElem 4
        (sum ieee754 (memOfElems 4 [0x3F800000, 0x41200000]) 0 4 4
          DataType.BYTEPS_FLOAT16).mem 0 0
        = ieee754.add32 (readElem 4 (memOfElems 4 [0x3F800000, 0x41200000]) 0 0)
            (readElem 4 (memOfElems 4 [0x3F800000, 0x41200000]) 4 0)
    ∧ readElem 4
        (sum ieee754 (memOfElems 4 [0x3F800000, 0x41200000]) 0 4 4
          DataType.BYTEPS_FLOAT16).mem 0 0 = 0x41300000 :=
  ⟨by decide,
    (sum_float16_is_float32 ieee754 (memOfElems 4 [0x3F800000, 0x41200000]) 0 4 4).2.2.1
      (by decide) 0 (by decide),
    by decide⟩

/-- C6: for every supported kind, with `w` the width of the kind (`sizeof(T)`,
2 for the 16-bit float) or the element width of its kernel, the last
`L mod w` of the first `L` bytes of the destination (offsets `L - L mod w` up
to `L - 1`) keep their value. -/
theorem sum_trailing_bytes_untouched (F : FloatUnit) (m : Mem) (dst src L : Nat)
    (T : DataType) (hT : T ∈ supportedKinds) (w : Nat)
    (hw : w = T.sizeOfT ∨ w = T.kernelWidth) (a : Nat)
    (h1 : dst + (L - L % w) ≤ a) (h2 : a < dst + L) :
    (sum F m dst src L T).mem a = m a := by
  apply sum_outside
  right
  have hdm := Nat.div_add_mod L T.kernelWidth
  have hmul : L / T.kernelWidth * T.kernelWidth = T.kernelWidth * (L / T.kernelWidth) :=
    Nat.mul_comm _ _
  rcases hw with rfl | rfl <;> cases T <;>
    simp only [DataType.sizeOfT, DataType.kernelWidth, supportedKinds, List.mem_cons,
      List.mem_singleton, List.not_mem_nil, or_self, or_false, reduceCtorEq] at * <;>
    omega

theorem sum_trailing_bytes_untouched_witness :
    DataType.BYTEPS_FLOAT16 ∈ supportedKinds
    ∧ 7 % DataType.sizeOfT DataType.BYTEPS_FLOAT16 ≠ 0
    ∧ (sum ieee754 (memOfList [1, 2, 3, 4, 5, 6, 7, 8, 9, 10, 11, 12, 13, 14]) 0 7 7
        DataType.BYTEPS_FLOAT16).mem 6
        = memOfList [1, 2, 3, 4, 5, 6, 7, 8, 9, 10, 11, 12, 13, 14] 6 :=
  ⟨by decide, by decide,
    sum_trailing_bytes_untouched ieee754 _ 0 7 7 DataType.BYTEPS_FLOAT16 (by decide) 2
      (Or.inl rfl) 6 (by decide) (by decide)⟩

/-- C7: for every kind and non-overlapping buffers, every byte of the source
buffer keeps its value, and so does every byte outside the first `L` bytes of
the destination: only the destination is written. -/
theorem sum_source_unchanged (F : FloatUnit) (m : Mem) (dst src L : Nat) (T : DataType)
    (hdis : NoOverlap dst src L) :
    (∀ a, src ≤ a → a < src + L → (sum F m dst src L T).mem a = m a)
    ∧ (∀ a, a < dst ∨ dst + L ≤ a → (sum F m dst src L T).mem a = m a) := by
  have hle := div_mul_kernelWidth_le L T
  unfold NoOverlap at hdis
  constructor
  · intro a h1 h2
    apply sum_outside
    omega
  · intro a h
    apply sum_outside
    omega

theorem sum_source_unchanged_witness :
    NoOverlap 0 4 4
    ∧ (sum ieee754 (memOfElems 4 [0x7FFFFFFF, 1]) 0 4 4 DataType.BYTEPS_INT32).mem 4
        = memOfElems 4 [0x7FFFFFFF, 1] 4 :=
  ⟨by decide,
    (sum_source_unchanged ieee754 (memOfElems 4 [0x7FFFFFFF, 1]) 0 4 4
      DataType.BYTEPS_INT32 (by decide)).1 4 (by decide) (by decide)⟩

/-- C8: for each of the seven supported kinds, every length and every memory,
`sum` returns the status 0; it does not end in the fatal branch. -/
theorem sum_supported_returns_zero (F : FloatUnit) (m : Mem) (dst src L : Nat)
    (T : DataType) (hT : T ∈ supportedKinds) :
    (∃ m2, sum F m dst src L T = Outcome.returned 0 m2)
    ∧ (sum F m dst src L T).status = some 0
    ∧ ∀ d m2, sum F m dst src L T ≠ Outcome.fatal d m2 := by
  rw [sum_supported F m dst src L T (supported_of_mem T hT)]
  exact ⟨⟨_, rfl⟩, rfl, fun d m2 h => by cases h⟩

theorem sum_supported_returns_zero_witness :
    DataType.BYTEPS_INT64 ∈ supportedKinds
    ∧ (sum ieee754 (memOfList [1, 2, 3]) 0 1 0 DataType.BYTEPS_INT64).status = some 0 :=
  ⟨by decide,
    (sum_supported_returns_zero ieee754 (memOfList [1, 2, 3]) 0 1 0
      DataType.BYTEPS_INT64 (by decide)).2.1⟩

/-- C9: for every type value outside the seven supported kinds, `sum` ends in
the fatal check, whose diagnostic carries the type value; it returns no status
and the memory is the one it was called with. -/
theorem sum_unsupported_fatal (F : FloatUnit) (m : Mem) (dst src L : Nat)
    (T : DataType) (hT : T ∉ supportedKinds) :
    sum F m dst src L T = Outcome.fatal T m
    ∧ (sum F m dst src L T).status = none
    ∧ (sum F m dst src L T).mem = m := by
  cases T <;> simp [supportedKinds] at hT
  exact ⟨rfl, rfl, rfl⟩

theorem sum_unsupported_fatal_witness :
    DataType.other 7 ∉ supportedKinds
    ∧ (sum ieee754 (memOfList [1, 2, 3]) 0 1 1 (DataType.other 7)).status = none :=
  ⟨by decide,
    (sum_unsupported_fatal ieee754 (memOfList [1, 2, 3]) 0 1 1 (DataType.other 7)
      (by decide)).2.1⟩

/-! ## The constructor's loop -/

theorem iterations_of_ge (d n i : Int) (hd : 1 ≤ d) (h : ¬ i < n) : iterations d n i = 0 := by
  unfold iterations
  have : (n - i + d - 1) / d < 1 := Int.ediv_lt_of_lt_mul (by omega) (by omega)
  omega

theorem iterations_of_lt (d n i : Int) (hd : 1 ≤ d) (h : i < n) :
    iterations d n i = iterations d n (i + d) + 1 := by
  unfold iterations
  have e : n - i + d - 1 = (n - (i + d) + d - 1) + 1 * d := by ring
  have h0 : 0 ≤ (n - (i + d) + d - 1) / d := Int.ediv_nonneg (by omega) (by omega)
  rw [e, Int.add_mul_ediv_right _ _ (by omega : d ≠ 0)]
  omega

theorem progression_succ (d i : Int) (k : Nat) :
    progression d i (k + 1) = i :: progression d (i + d) k := by
  unfold progression
  rw [List.range_succ_eq_map, List.map_cons, List.map_map]
  congr 1
  · simp
  · apply List.map_congr_left
    intro j _
    simp only [Function.comp, Nat.succ_eq_add_one]
    push_cast
    ring

theorem wrapInt_of_fits (x : Int) (h1 : -2147483648 ≤ x) (h2 : x ≤ 2147483647) :
    wrapInt x = x := by
  unfold wrapInt
  omega

/-- The loop entered at an `int` value `i` whose last value fits in `int`, run
with `fuel` evaluations of its condition, ends exactly when `fuel` exceeds the
number of iterations, with the arithmetic progression from `i` appended. -/
theorem peersLoop_eq (d n : Int) (hd : 1 ≤ d) : ∀ (fuel : Nat) (i : Int) (acc : List Int),
    -2147483648 ≤ i → i + d * (iterations d n i : Int) ≤ 2147483647 →
    peersLoop d n fuel i acc
      = if iterations d n i < fuel then some (acc ++ progression d i (iterations d n i))
        else none := by
  intro fuel
  induction fuel with
  | zero => intro i acc _ _; simp [peersLoop]
  | succ fuel ih =>
    intro i acc hlo hfit
    unfold peersLoop
    by_cases h : i < n
    · have hit := iterations_of_lt d n i hd h
      have hk : 0 ≤ d * (iterations d n (i + d) : Int) :=
        Int.mul_nonneg (by omega) (by omega)
      have e : d * ((iterations d n (i + d) + 1 : Nat) : Int)
          = d * (iterations d n (i + d) : Int) + d := by
        push_cast
        ring
      rw [hit, e] at hfit
      rw [if_pos h, wrapInt_of_fits (i + d) (by omega) (by omega),
        ih (i + d) (acc ++ [i]) (by omega) (by omega), hit, progression_succ]
      by_cases hf : iterations d n (i + d) < fuel
      · rw [if_pos hf, if_pos (by omega)]
        simp
      · rw [if_neg hf, if_neg (by omega)]
    · rw [if_neg h, iterations_of_ge d n i hd h, if_pos (by omega)]
      simp [progression]

/-- Whatever the loop ends with extends the list it was entered with. -/
theorem peersLoop_prefix (d n : Int) : ∀ (fuel : Nat) (i : Int) (acc l : List Int),
    peersLoop d n fuel i acc = some l → ∃ t, l = acc ++ t := by
  intro fuel
  induction fuel with
  | zero => intro i acc l h; simp [peersLoop] at h
  | succ fuel ih =>
    intro i acc l h
    unfold peersLoop at h
    by_cases hin : i < n
    · rw [if_pos hin] at h
      obtain ⟨t, ht⟩ := ih _ _ _ h
      exact ⟨i :: t, by rw [ht]; simp⟩
    · rw [if_neg hin] at h
      simp only [Option.some.injEq] at h
      exact ⟨[], by rw [← h]; simp⟩

/-- With a positive step, every value below the bound that the loop variable
reaches before any overflow is in the list the loop ends with. -/
theorem peersLoop_mem (d n : Int) (hd : 1 ≤ d) : ∀ (fuel : Nat) (i : Int) (acc l : List Int),
    peersLoop d n fuel i acc = some l →
    ∀ x, i ≤ x → x < n → x ≤ 2147483647 → -2147483648 ≤ i → d ∣ x - i → x ∈ l := by
  intro fuel
  induction fuel with
  | zero => intro i acc l h; simp [peersLoop] at h
  | succ fuel ih =>
    intro i acc l h x hix hxn hx hi hdvd
    unfold peersLoop at h
    rw [if_pos (by omega : i < n)] at h
    by_cases hxi : x = i
    · obtain ⟨t, ht⟩ := peersLoop_prefix d n _ _ _ _ h
      rw [ht, hxi]
      simp
    · have hle : d ≤ x - i := Int.le_of_dvd (by omega) hdvd
      rw [wrapInt_of_fits (i + d) (by omega) (by omega)] at h
      refine ih (i + d) _ l h x (by omega) hxn hx (by omega) ?_
      obtain ⟨c, hc⟩ := hdvd
      exact ⟨c - 1, by linear_combination hc⟩

theorem mem_progression (d i x : Int) (k : Nat) :
    x ∈ progression d i k ↔ ∃ j : Nat, j < k ∧ x = i + d * (j : Int) := by
  unfold progression
  simp only [List.mem_map, List.mem_range]
  constructor
  · rintro ⟨j, hj, rfl⟩; exact ⟨j, hj, rfl⟩
  · rintro ⟨j, hj, rfl⟩; exact ⟨j, hj, rfl⟩

/-- Members of the progression entered at `r mod d`: the identifiers in
`[0, n)` congruent to `r` modulo `d`. -/
theorem mem_progression_iff (d r n x : Int) (hd : 1 ≤ d) :
    x ∈ progression d (r % d) (iterations d n (r % d))
      ↔ 0 ≤ x ∧ x < n ∧ x % d = r % d := by
  have hdpos : 0 < d := by omega
  have h0 : 0 ≤ r % d := Int.emod_nonneg r (by omega)
  have h1 : r % d < d := Int.emod_lt_of_pos r hdpos
  rw [mem_progression]
  unfold iterations
  constructor
  · rintro ⟨j, hj, rfl⟩
    have hj2 : ((j : Int) + 1) ≤ (n - r % d + d - 1) / d := by omega
    have hj3 := (Int.le_ediv_iff_mul_le hdpos).mp hj2
    have hj0 : (0 : Int) ≤ d * j := Int.mul_nonneg (by omega) (by omega)
    have e1 : ((j : Int) + 1) * d = d * j + d := by ring
    refine ⟨by omega, by omega, ?_⟩
    rw [Int.add_mul_emod_self_left, Int.emod_emod_of_dvd r (dvd_refl d)]
  · rintro ⟨hx0, hxn, hxm⟩
    have hq : 0 ≤ x / d := Int.ediv_nonneg hx0 (by omega)
    have hx := Int.emod_add_ediv x d
    refine ⟨(x / d).toNat, ?_, ?_⟩
    · have e1 : (x / d + 1) * d = d * (x / d) + d := by ring
      have h2 : x / d + 1 ≤ (n - r % d + d - 1) / d :=
        (Int.le_ediv_iff_mul_le hdpos).mpr (by omega)
      omega
    · rw [Int.toNat_of_nonneg hq]
      omega

theorem progression_pairwise_lt (d i : Int) (k : Nat) (hd : 1 ≤ d) :
    List.Pairwise (fun a b => a < b) (progression d i k) := by
  unfold progression
  rw [List.pairwise_map]
  refine (List.pairwise_lt_range k).imp ?_
  intro a b hab
  have h1 : (a : Int) < (b : Int) := by exact_mod_cast hab
  have h2 : d * (a : Int) < d * (b : Int) := Int.mul_lt_mul_of_pos_left h1 (by omega)
  omega

theorem progression_chain (d i : Int) (k : Nat) :
    List.Chain' (fun a b => b - a = d) (progression d i k) := by
  unfold progression
  rw [List.chain'_map]
  cases k with
  | zero => simp
  | succ k =>
    rw [List.chain'_range_succ]
    intro j _
    push_cast
    ring

theorem emod_le_of_nonneg (d r : Int) (hd : 1 ≤ d) (hr : 0 ≤ r) : r % d ≤ r := by
  have h1 := Int.emod_add_ediv r d
  have h2 : 0 ≤ d * (r / d) := Int.mul_nonneg (by omega) (Int.ediv_nonneg hr (by omega))
  omega

/-- The peer list for a positive locality-domain size and a non-negative
rank, when the loop variable stays within `int`, for every fuel. -/
theorem peerList_eq (fuel : Nat) (d r n : CInt) (hd : 1 ≤ d.val) (hr : 0 ≤ r.val)
    (hfit : LoopFits d.val r.val n.val) :
    peerList fuel d r n
      = if iterations d.val n.val (r.val % d.val) < fuel
        then Except.ok (progression d.val (r.val % d.val)
          (iterations d.val n.val (r.val % d.val)))
        else Except.error CtorError.outOfFuel := by
  have h0 : 0 ≤ r.val % d.val := Int.emod_nonneg r.val (by omega)
  unfold peerList
  rw [if_neg (by omega), if_neg (by omega), Int.tmod_eq_emod hr (by omega),
    peersLoop_eq d.val n.val hd fuel _ _ (by omega) hfit]
  by_cases hf : iterations d.val n.val (r.val % d.val) < fuel
  · simp [hf]
  · simp [hf]

theorem peerList_ok_iff (fuel : Nat) (d r n : CInt) (hd : 1 ≤ d.val) (hr : 0 ≤ r.val)
    (hfit : LoopFits d.val r.val n.val) (l : List Int) :
    peerList fuel d r n = Except.ok l
      ↔ iterations d.val n.val (r.val % d.val) < fuel
        ∧ l = progression d.val (r.val % d.val) (iterations d.val n.val (r.val % d.val)) := by
  rw [peerList_eq fuel d r n hd hr hfit]
  by_cases hf : iterations d.val n.val (r.val % d.val) < fuel
  · rw [if_pos hf]
    simp only [Except.ok.injEq, hf, true_and]
    exact eq_comm
  · rw [if_neg hf]
    simp [hf]

theorem peerList_terminates (d r n : CInt) (hd : 1 ≤ d.val) (hr : 0 ≤ r.val)
    (hfit : LoopFits d.val r.val n.val) :
    peerList (iterations d.val n.val (r.val % d.val) + 1) d r n
      = Except.ok (progression d.val (r.val % d.val)
          (iterations d.val n.val (r.val % d.val))) :=
  (peerList_ok_iff _ d r n hd hr hfit _).mpr ⟨Nat.lt_succ_self _, rfl⟩

/-- The loop variable stays within `int` whenever `n + d ≤ 2 ^ 31`. -/
theorem loopFits_of_sum_le (d r n : Int) (hd : 1 ≤ d) (hr : 0 ≤ r) (hr2 : r ≤ 2147483647)
    (h : n + d ≤ 2147483648) : LoopFits d r n := by
  unfold LoopFits
  have hle := emod_le_of_nonneg d r hd hr
  cases hk : iterations d n (r % d) with
  | zero => simp only [Nat.cast_zero, Int.mul_zero]; omega
  | succ k =>
    have hm : r % d + d * (k : Int) ∈ progression d (r % d) (iterations d n (r % d)) :=
      (mem_progression d (r % d) _ _).mpr ⟨k, by omega, rfl⟩
    have := ((mem_progression_iff d r n _ hd).mp hm).2.1
    push_cast
    have e : d * ((k : Int) + 1) = d * (k : Int) + d := by ring
    omega

/-- What the peer list holds for a rank below the participant count, whether
or not the loop variable overflows. -/
theorem peerList_own_rank (fuel : Nat) (d r n : CInt) (hd : 1 ≤ d.val) (hr : 0 ≤ r.val)
    (hrn : r.val < n.val) (peers : List Int) (h : peerList fuel d r n = Except.ok peers) :
    peers.head? = some (r.val % d.val) ∧ r.val % d.val ∈ peers ∧ r.val ∈ peers := by
  have h0 : 0 ≤ r.val % d.val := Int.emod_nonneg r.val (by omega)
  have hle := emod_le_of_nonneg d.val r.val hd hr
  have hrmax := r.le
  unfold peerList at h
  rw [if_neg (by omega), if_neg (by omega), Int.tmod_eq_emod hr (by omega)] at h
  cases hl : peersLoop d.val n.val fuel (r.val % d.val) [] with
  | none => rw [hl] at h; simp at h
  | some l =>
    rw [hl] at h
    simp only [Except.ok.injEq] at h
    subst h
    have hmem : ∀ x, r.val % d.val ≤ x → x < n.val → x ≤ 2147483647 →
        d.val ∣ x - r.val % d.val → x ∈ l :=
      fun x a b c e => peersLoop_mem d.val n.val hd fuel _ _ l hl x a b c (by omega) e
    refine ⟨?_, hmem _ (Int.le_refl _) (by omega) (by omega) (by simp), ?_⟩
    · cases fuel with
      | zero => simp [peersLoop] at hl
      | succ fuel =>
        unfold peersLoop at hl
        rw [if_pos (by omega : r.val % d.val < n.val)] at hl
        obtain ⟨t, ht⟩ := peersLoop_prefix d.val n.val _ _ _ _ hl
        rw [ht]
        rfl
    · refine hmem r.val hle hrn hrmax ?_
      exact Int.dvd_sub_of_emod_eq rfl

/-- C10 (counterexample): with locality-domain size 1500000000, own rank
1400000000 and participant count 1600000000 the loop variable overflows: the
constructor's list is `[1400000000, -1394967296, 105032704]`, which has the
member -1394967296 outside `[0, n)`. -/
theorem constructor_peer_list_overflow :
    (1 : Int) ≤ 1500000000 ∧ (0 : Int) ≤ 1400000000
    ∧ peerList 4 ⟨1500000000, by decide, by decide⟩
        ⟨1400000000, by decide, by decide⟩ ⟨1600000000, by decide, by decide⟩
        = Except.ok [1400000000, -1394967296, 105032704]
    ∧ ¬ (∀ i : Int, i ∈ ([1400000000, -1394967296, 105032704] : List Int)
          ↔ 0 ≤ i ∧ i < 1600000000 ∧ i % 1500000000 = 1400000000 % 1500000000) := by
  refine ⟨by decide, by decide, rfl, ?_⟩
  intro h
  have := (h (-1394967296)).mp (by simp)
  omega

/-- C10 (amended): for `int` values `d ≥ 1`, `r ≥ 0` and `n` for which the
loop variable does not overflow (`r mod d + k * d ≤ INT_MAX`, `k` the iteration
count), the constructor's loop ends (for every fuel above the iteration count,
and with no other list for any fuel) with a peer list that contains exactly the
identifiers `i` with `0 ≤ i < n` and `i mod d = r mod d`, and the constructed
object holds that list; `d = 4`, `n = 8`, `r = 5` gives `[1, 5]`. -/
theorem constructor_peer_list (comm : BytePSComm) (threads : Nat) (d r n : CInt)
    (hd : 1 ≤ d.val) (hr : 0 ≤ r.val) (hfit : LoopFits d.val r.val n.val) :
    ∃ peers : List Int,
      (∀ fuel, iterations d.val n.val (r.val % d.val) < fuel →
        peerList fuel d r n = Except.ok peers
        ∧ ∃ st, CpuReducer fuel comm d r n threads = Except.ok st
            ∧ st._comm.members = peers)
      ∧ (∀ fuel l, peerList fuel d r n = Except.ok l → l = peers)
      ∧ (∀ i, i ∈ peers ↔ 0 ≤ i ∧ i < n.val ∧ i % d.val = r.val % d.val)
      ∧ peerList 3 ⟨4, by decide, by decide⟩ ⟨5, by decide, by decide⟩ ⟨8, by decide, by decide⟩ = Except.ok [1, 5] := by
  refine ⟨progression d.val (r.val % d.val) (iterations d.val n.val (r.val % d.val)),
    ?_, ?_, ?_, rfl⟩
  · intro fuel hf
    have h := (peerList_ok_iff fuel d r n hd hr hfit _).mpr ⟨hf, rfl⟩
    refine ⟨h, ?_⟩
    unfold CpuReducer
    rw [h]
    exact ⟨_, rfl, rfl⟩
  · intro fuel l h
    exact ((peerList_ok_iff fuel d r n hd hr hfit l).mp h).2
  · intro i
    exact mem_progression_iff d.val r.val n.val i hd

theorem constructor_peer_list_witness :
    (1 : Int) ≤ 4 ∧ (0 : Int) ≤ 5 ∧ LoopFits 4 5 8
    ∧ ∃ peers : List Int,
      (∀ fuel, iterations 4 8 (5 % 4) < fuel →
        peerList fuel ⟨4, by decide, by decide⟩ ⟨5, by decide, by decide⟩ ⟨8, by decide, by decide⟩ = Except.ok peers
        ∧ ∃ st, CpuReducer fuel ⟨fun l => l.headD 0⟩ ⟨4, by decide, by decide⟩
              ⟨5, by decide, by decide⟩ ⟨8, by decide, by decide⟩ 8 = Except.ok st
            ∧ st._comm.members = peers)
      ∧ (∀ fuel l, peerList fuel ⟨4, by decide, by decide⟩ ⟨5, by decide, by decide⟩ ⟨8, by decide, by decide⟩ = Except.ok l →
          l = peers)
      ∧ (∀ i, i ∈ peers ↔ 0 ≤ i ∧ i < 8 ∧ i % 4 = 5 % 4)
      ∧ peerList 3 ⟨4, by decide, by decide⟩ ⟨5, by decide, by decide⟩ ⟨8, by decide, by decide⟩ = Except.ok [1, 5] :=
  ⟨by decide, by decide, by decide,
    constructor_peer_list ⟨fun l => l.headD 0⟩ 8 ⟨4, by decide, by decide⟩ ⟨5, by decide, by decide⟩ ⟨8, by decide, by decide⟩
      (by decide) (by decide) (by decide)⟩

/-- C11 (counterexample): with locality-domain size 1500000000, own rank
1400000000 and participant count 1600000000 (so `0 ≤ r < n`) the constructor's
list has the member -1394967296 below `r mod d = 1400000000`. -/
theorem peers_smallest_overflow :
    (1 : Int) ≤ 1500000000 ∧ (0 : Int) ≤ 1400000000 ∧ (1400000000 : Int) < 1600000000
    ∧ peerList 4 ⟨1500000000, by decide, by decide⟩
        ⟨1400000000, by decide, by decide⟩ ⟨1600000000, by decide, by decide⟩
        = Except.ok [1400000000, -1394967296, 105032704]
    ∧ ¬ (∀ x ∈ ([1400000000, -1394967296, 105032704] : List Int),
          (1400000000 : Int) % 1500000000 ≤ x) := by
  refine ⟨by decide, by decide, by decide, rfl, ?_⟩
  intro h
  have := h (-1394967296) (by simp)
  omega

/-- C11 (amended): for `int` values `d ≥ 1`, `n` and `r` with `0 ≤ r < n`,
every peer list the constructor's loop ends with is non-empty, starts with
`r mod d` and contains `r mod d` and `r`; and when the loop variable does not
overflow, the loop ends and no member of the list is below `r mod d`. -/
theorem peers_contain_own_rank (d r n : CInt)
    (hd : 1 ≤ d.val) (hr0 : 0 ≤ r.val) (hrn : r.val < n.val) :
    (∀ fuel peers, peerList fuel d r n = Except.ok peers →
        peers ≠ []
        ∧ peers.head? = some (r.val % d.val)
        ∧ r.val % d.val ∈ peers
        ∧ r.val ∈ peers)
    ∧ (LoopFits d.val r.val n.val →
        (∃ fuel peers, peerList fuel d r n = Except.ok peers)
        ∧ ∀ fuel peers, peerList fuel d r n = Except.ok peers →
            ∀ x ∈ peers, r.val % d.val ≤ x) := by
  constructor
  · intro fuel peers h
    have hp := peerList_own_rank fuel d r n hd hr0 hrn peers h
    refine ⟨?_, hp.1, hp.2.1, hp.2.2⟩
    intro he
    rw [he] at hp
    simp at hp
  · intro hfit
    refine ⟨⟨_, _, peerList_terminates d r n hd hr0 hfit⟩, ?_⟩
    intro fuel peers h x hx
    obtain ⟨_, rfl⟩ := (peerList_ok_iff fuel d r n hd hr0 hfit peers).mp h
    obtain ⟨j, _, rfl⟩ := (mem_progression d.val (r.val % d.val) x _).mp hx
    have : 0 ≤ d.val * (j : Int) := Int.mul_nonneg (by omega) (by omega)
    omega

theorem peers_contain_own_rank_witness :
    (1 : Int) ≤ 4 ∧ (0 : Int) ≤ 5 ∧ (5 : Int) < 8
    ∧ peerList 3 ⟨4, by decide, by decide⟩ ⟨5, by decide, by decide⟩ ⟨8, by decide, by decide⟩ = Except.ok [1, 5]
    ∧ ([1, 5] : List Int).head? = some (5 % 4)
    ∧ (5 : Int) ∈ ([1, 5] : List Int) :=
  ⟨by decide, by decide, by decide, rfl,
    ((peers_contain_own_rank ⟨4, by decide, by decide⟩ ⟨5, by decide, by decide⟩ ⟨8, by decide, by decide⟩
      (by decide) (by decide) (by decide)).1 3 [1, 5] rfl).2.1,
    ((peers_contain_own_rank ⟨4, by decide, by decide⟩ ⟨5, by decide, by decide⟩ ⟨8, by decide, by decide⟩
      (by decide) (by decide) (by decide)).1 3 [1, 5] rfl).2.2.2⟩

/-- C15 (counterexample): with locality-domain size 1500000000, own rank
1400000000 and participant count 1600000000 the constructor's list
`[1400000000, -1394967296, 105032704]` is not increasing, its consecutive
members do not differ by `d`, and it has a negative member. -/
theorem peers_not_increasing_overflow :
    (1 : Int) ≤ 1500000000 ∧ (0 : Int) ≤ 1400000000
    ∧ peerList 4 ⟨1500000000, by decide, by decide⟩
        ⟨1400000000, by decide, by decide⟩ ⟨1600000000, by decide, by decide⟩
        = Except.ok [1400000000, -1394967296, 105032704]
    ∧ ¬ List.Pairwise (fun a b => a < b) ([1400000000, -1394967296, 105032704] : List Int)
    ∧ ¬ List.Chain' (fun a b => b - a = 1500000000)
          ([1400000000, -1394967296, 105032704] : List Int)
    ∧ ¬ (∀ i ∈ ([1400000000, -1394967296, 105032704] : List Int), 0 ≤ i ∧ i < 1600000000) := by
  refine ⟨by decide, by decide, rfl, by decide, ?_, ?_⟩
  · simp
  · intro h
    have := h (-1394967296) (by simp)
    omega

/-- C15 (amended): for `int` values `d ≥ 1`, `r ≥ 0` and `n` for which the
loop variable does not overflow, the constructor's loop ends, and the peer list
it ends with is strictly increasing, has no duplicates, has consecutive members
that differ by exactly `d`, and has every member in `[0, n)`. -/
theorem peers_strictly_increasing (d r n : CInt) (hd : 1 ≤ d.val) (hr : 0 ≤ r.val)
    (hfit : LoopFits d.val r.val n.val) :
    (∃ fuel peers, peerList fuel d r n = Except.ok peers)
    ∧ ∀ fuel peers, peerList fuel d r n = Except.ok peers →
        List.Pairwise (fun a b => a < b) peers
        ∧ peers.Nodup
        ∧ List.Chain' (fun a b => b - a = d.val) peers
        ∧ ∀ i ∈ peers, 0 ≤ i ∧ i < n.val := by
  refine ⟨⟨_, _, peerList_terminates d r n hd hr hfit⟩, ?_⟩
  intro fuel peers h
  obtain ⟨_, rfl⟩ := (peerList_ok_iff fuel d r n hd hr hfit peers).mp h
  have hp := progression_pairwise_lt d.val (r.val % d.val)
    (iterations d.val n.val (r.val % d.val)) hd
  refine ⟨hp, hp.imp (fun hab => ne_of_lt hab), progression_chain d.val _ _, ?_⟩
  intro i hi
  have := (mem_progression_iff d.val r.val n.val i hd).mp hi
  exact ⟨this.1, this.2.1⟩

theorem peers_strictly_increasing_witness :
    (1 : Int) ≤ 3 ∧ (0 : Int) ≤ 7 ∧ LoopFits 3 7 10
    ∧ peerList 5 ⟨3, by decide, by decide⟩ ⟨7, by decide, by decide⟩ ⟨10, by decide, by decide⟩ = Except.ok [1, 4, 7]
    ∧ List.Chain' (fun a b => b - a = (3 : Int)) [1, 4, 7]
    ∧ ([1, 4, 7] : List Int).Nodup :=
  ⟨by decide, by decide, by decide, rfl,
    ((peers_strictly_increasing ⟨3, by decide, by decide⟩ ⟨7, by decide, by decide⟩ ⟨10, by decide, by decide⟩
      (by decide) (by decide) (by decide)).2 5 [1, 4, 7] rfl).2.2.1,
    ((peers_strictly_increasing ⟨3, by decide, by decide⟩ ⟨7, by decide, by decide⟩ ⟨10, by decide, by decide⟩
      (by decide) (by decide) (by decide)).2 5 [1, 4, 7] rfl).2.1⟩

/-- C18 (counterexample): with locality-domain size 1500000000 and participant
count 1600000000, the ranks 1400000000 and 105032704 (both in `[0, n)`) have
different residues, yet the constructor's lists for them,
`[1400000000, -1394967296, 105032704]` and `[105032704]`, share the member
105032704; and that member of the first list computes a different list. -/
theorem peers_shared_member_overflow :
    (1 : Int) ≤ 1500000000
    ∧ ((0 : Int) ≤ 1400000000 ∧ (1400000000 : Int) < 1600000000)
    ∧ ((0 : Int) ≤ 105032704 ∧ (105032704 : Int) < 1600000000)
    ∧ (1400000000 : Int) % 1500000000 ≠ 105032704 % 1500000000
    ∧ peerList 4 ⟨1500000000, by decide, by decide⟩
        ⟨1400000000, by decide, by decide⟩ ⟨1600000000, by decide, by decide⟩
        = Except.ok [1400000000, -1394967296, 105032704]
    ∧ peerList 2 ⟨1500000000, by decide, by decide⟩
        ⟨105032704, by decide, by decide⟩ ⟨1600000000, by decide, by decide⟩
        = Except.ok [105032704]
    ∧ (105032704 : Int) ∈ ([1400000000, -1394967296, 105032704] : List Int)
    ∧ (105032704 : Int) ∈ ([105032704] : List Int)
    ∧ ([1400000000, -1394967296, 105032704] : List Int) ≠ [105032704] := by
  refine ⟨by decide, by decide, by decide, by decide, rfl, rfl, by decide, by decide,
    by decide⟩

/-- C18 (amended): for `int` values `d ≥ 1`, `n` and ranks `r1, r2 ≥ 0` for
which the loop variable does not overflow, the constructor's loop ends for
both, with the same peer list when `r1 mod d = r2 mod d` and with lists that
share no member otherwise; and the loop run for any member of the peer list of
`r1` ends with that same list. The upper bound `n` on the ranks is not
needed. -/
theorem peers_agreed_by_members (d n r1 r2 : CInt) (hd : 1 ≤ d.val)
    (h1 : 0 ≤ r1.val) (h2 : 0 ≤ r2.val)
    (hfit1 : LoopFits d.val r1.val n.val) (hfit2 : LoopFits d.val r2.val n.val) :
    (∃ fuel p1 p2, peerList fuel d r1 n = Except.ok p1 ∧ peerList fuel d r2 n = Except.ok p2)
    ∧ ∀ f1 f2 p1 p2, peerList f1 d r1 n = Except.ok p1 → peerList f2 d r2 n = Except.ok p2 →
        (r1.val % d.val = r2.val % d.val → p1 = p2)
        ∧ (r1.val % d.val ≠ r2.val % d.val → ∀ x, x ∈ p1 → x ∉ p2)
        ∧ ∀ x : CInt, x.val ∈ p1 →
            (∃ f3, peerList f3 d x n = Except.ok p1)
            ∧ ∀ f3 p3, peerList f3 d x n = Except.ok p3 → p3 = p1 := by
  constructor
  · refine ⟨max (iterations d.val n.val (r1.val % d.val))
        (iterations d.val n.val (r2.val % d.val)) + 1,
      progression d.val (r1.val % d.val) (iterations d.val n.val (r1.val % d.val)),
      progression d.val (r2.val % d.val) (iterations d.val n.val (r2.val % d.val)), ?_, ?_⟩
    · exact (peerList_ok_iff _ d r1 n hd h1 hfit1 _).mpr ⟨by omega, rfl⟩
    · exact (peerList_ok_iff _ d r2 n hd h2 hfit2 _).mpr ⟨by omega, rfl⟩
  · intro f1 f2 p1 p2 hp1 hp2
    obtain ⟨_, rfl⟩ := (peerList_ok_iff f1 d r1 n hd h1 hfit1 p1).mp hp1
    obtain ⟨_, rfl⟩ := (peerList_ok_iff f2 d r2 n hd h2 hfit2 p2).mp hp2
    refine ⟨?_, ?_, ?_⟩
    · intro he
      rw [he]
    · intro hne x hx1 hx2
      have a1 := (mem_progression_iff d.val r1.val n.val x hd).mp hx1
      have a2 := (mem_progression_iff d.val r2.val n.val x hd).mp hx2
      exact hne (a1.2.2.symm.trans a2.2.2)
    · intro x hx
      have a1 := (mem_progression_iff d.val r1.val n.val x.val hd).mp hx
      have hfitx : LoopFits d.val x.val n.val := by
        unfold LoopFits at hfit1 ⊢
        rw [a1.2.2]
        exact hfit1
      constructor
      · refine ⟨iterations d.val n.val (x.val % d.val) + 1, ?_⟩
        rw [peerList_terminates d x n hd a1.1 hfitx, a1.2.2]
      · intro f3 p3 hp3
        obtain ⟨_, rfl⟩ := (peerList_ok_iff f3 d x n hd a1.1 hfitx p3).mp hp3
        rw [a1.2.2]

theorem peers_agreed_by_members_witness :
    (1 : Int) ≤ 4 ∧ (0 : Int) ≤ 5 ∧ (0 : Int) ≤ 2 ∧ LoopFits 4 5 8 ∧ LoopFits 4 2 8
    ∧ peerList 3 ⟨4, by decide, by decide⟩ ⟨5, by decide, by decide⟩ ⟨8, by decide, by decide⟩ = Except.ok [1, 5]
    ∧ peerList 3 ⟨4, by decide, by decide⟩ ⟨2, by decide, by decide⟩ ⟨8, by decide, by decide⟩ = Except.ok [2, 6]
    ∧ ((5 : Int) % 4 ≠ 2 % 4 → ∀ x, x ∈ ([1, 5] : List Int) → x ∉ ([2, 6] : List Int))
    ∧ ∀ x : CInt, x.val ∈ ([1, 5] : List Int) →
        (∃ f3, peerList f3 ⟨4, by decide, by decide⟩ x ⟨8, by decide, by decide⟩ = Except.ok [1, 5])
        ∧ ∀ f3 p3, peerList f3 ⟨4, by decide, by decide⟩ x ⟨8, by decide, by decide⟩ = Except.ok p3 →
            p3 = [1, 5] :=
  ⟨by decide, by decide, by decide, by decide, by decide, rfl, rfl,
    ((peers_agreed_by_members ⟨4, by decide, by decide⟩ ⟨8, by decide, by decide⟩ ⟨5, by decide, by decide⟩ ⟨2, by decide, by decide⟩
      (by decide) (by decide) (by decide) (by decide) (by decide)).2
      3 3 [1, 5] [2, 6] rfl rfl).2.1,
    ((peers_agreed_by_members ⟨4, by decide, by decide⟩ ⟨8, by decide, by decide⟩ ⟨5, by decide, by decide⟩ ⟨2, by decide, by decide⟩
      (by decide) (by decide) (by decide) (by decide) (by decide)).2
      3 3 [1, 5] [2, 6] rfl rfl).2.2⟩

/-! ## Claims about `isRoot` -/

/-- C12: `isRoot` returns true exactly when the root identifier reported by
the object's sub-communicator equals the caller's own local rank, and it leaves
the members of the object and the memory as they were. -/
theorem isRoot_iff_root_is_own_rank (local_rank : Int) (p : Process) :
    ((isRoot local_rank p).1 = true ↔ p.self._comm.getRoot = local_rank)
    ∧ (isRoot local_rank p).2 = p
    ∧ (isRoot local_rank p).2.self = p.self
    ∧ (isRoot local_rank p).2.mem = p.mem := by
  refine ⟨?_, rfl, rfl, rfl⟩
  simp [isRoot]

theorem call_keeps_self (F : FloatUnit) (local_rank : Int) (p p2 : Process) (c : Call)
    (h : p.call F local_rank c = some p2) : p2.self = p.self := by
  cases c with
  | isRoot =>
    simp only [Process.call, isRoot, Option.some.injEq] at h
    rw [← h]
  | sum dst src len dtype =>
    simp only [Process.call, sumCall] at h
    cases hs : sum F p.mem dst src len dtype with
    | returned status m =>
      rw [hs] at h
      simp only [Option.map_some', Option.some.injEq] at h
      rw [← h]
    | fatal d m =>
      rw [hs] at h
      simp at h

theorem run_keeps_self (F : FloatUnit) (local_rank : Int) :
    ∀ (calls : List Call) (p p2 : Process),
      Process.run F local_rank p calls = some p2 → p2.self = p.self := by
  intro calls
  induction calls with
  | nil =>
    intro p p2 h
    simp only [Process.run, Option.some.injEq] at h
    rw [← h]
  | cons c cs ih =>
    intro p p2 h
    simp only [Process.run] at h
    cases hc : p.call F local_rank c with
    | none =>
      rw [hc] at h
      simp at h
    | some p1 =>
      rw [hc] at h
      rw [ih p1 p2 h, call_keeps_self F local_rank p p1 c hc]

/-- C13: for a fixed own local rank, after any sequence of `isRoot` and `sum`
calls that the process survives, the members of the object (sub-communicator
with its peer list and root, thread budget) are what they were, and `isRoot`
returns the same boolean as before the sequence. -/
theorem isRoot_stable (F : FloatUnit) (local_rank : Int) (p p2 : Process)
    (calls : List Call) (h : Process.run F local_rank p calls = some p2) :
    p2.self = p.self
    ∧ p2.self._comm = p.self._comm
    ∧ p2.self._num_threads = p.self._num_threads
    ∧ (isRoot local_rank p2).1 = (isRoot local_rank p).1 := by
  have hs := run_keeps_self F local_rank calls p p2 h
  refine ⟨hs, by rw [hs], by rw [hs], ?_⟩
  simp only [isRoot]
  rw [hs]

theorem isRoot_stable_witness :
    Process.run ieee754 5 ⟨⟨⟨[1, 5], 5⟩, 8⟩, memOfElems 4 [0x7FFFFFFF, 1]⟩
        [Call.isRoot, Call.sum 0 4 4 DataType.BYTEPS_INT32, Call.isRoot]
      = some ⟨⟨⟨[1, 5], 5⟩, 8⟩,
          (sum ieee754 (memOfElems 4 [0x7FFFFFFF, 1]) 0 4 4 DataType.BYTEPS_INT32).mem⟩
    ∧ (isRoot 5 ⟨⟨⟨[1, 5], 5⟩, 8⟩,
          (sum ieee754 (memOfElems 4 [0x7FFFFFFF, 1]) 0 4 4 DataType.BYTEPS_INT32).mem⟩).1
      = (isRoot 5 ⟨⟨⟨[1, 5], 5⟩, 8⟩, memOfElems 4 [0x7FFFFFFF, 1]⟩).1 :=
  ⟨rfl,
    (isRoot_stable ieee754 5 ⟨⟨⟨[1, 5], 5⟩, 8⟩, memOfElems 4 [0x7FFFFFFF, 1]⟩
      ⟨⟨⟨[1, 5], 5⟩, 8⟩,
        (sum ieee754 (memOfElems 4 [0x7FFFFFFF, 1]) 0 4 4 DataType.BYTEPS_INT32).mem⟩
      [Call.isRoot, Call.sum 0 4 4 DataType.BYTEPS_INT32, Call.isRoot] rfl).2.2.2⟩

/-! ## Index-disjoint iterations -/

theorem elementwise_eq_runOrder (w : Nat) (op : Nat → Nat → Nat) (dst src n : Nat) (m : Mem) :
    elementwise w op dst src n m = runOrder (List.range n) (iteration w op dst src) m := rfl

/-- An iteration writes only the bytes of element `i` of the destination. -/
theorem iteration_outside (w : Nat) (op : Nat → Nat → Nat) (dst src i : Nat) (m : Mem)
    (a : Nat) (h : a < dst + i * w ∨ dst + i * w + w ≤ a) :
    iteration w op dst src i m a = m a :=
  storeLE_outside _ _ _ _ _ h

/-- What an iteration writes depends only on the bytes of element `i` of the
destination and of the source. -/
theorem iteration_reads (w : Nat) (op : Nat → Nat → Nat) (dst src i : Nat) (m1 m2 : Mem)
    (hd : ∀ a, dst + i * w ≤ a → a < dst + i * w + w → m1 a = m2 a)
    (hs : ∀ a, src + i * w ≤ a → a < src + i * w + w → m1 a = m2 a)
    (a : Nat) (h1 : dst + i * w ≤ a) (h2 : a < dst + i * w + w) :
    iteration w op dst src i m1 a = iteration w op dst src i m2 a := by
  unfold iteration writeElem readElem
  rw [loadLE_congr m1 m2 w (dst + i * w) hd, loadLE_congr m1 m2 w (src + i * w) hs]
  unfold storeLE
  rw [if_pos ⟨h1, h2⟩, if_pos ⟨h1, h2⟩]

theorem storeLE_comm (m : Mem) (p q w v u : Nat) (h : p + w ≤ q ∨ q + w ≤ p) :
    storeLE (storeLE m p w v) q w u = storeLE (storeLE m q w u) p w v := by
  funext a
  unfold storeLE
  by_cases h1 : p ≤ a ∧ a < p + w
  · have h2 : ¬ (q ≤ a ∧ a < q + w) := by omega
    rw [if_neg h2, if_pos h1, if_pos h1]
  · by_cases h2 : q ≤ a ∧ a < q + w
    · rw [if_pos h2, if_neg h1, if_pos h2]
    · rw [if_neg h2, if_neg h1, if_neg h1, if_neg h2]

/-- Two different iterations below `n` commute when the `n` elements of the
destination and of the source do not overlap. -/
theorem iteration_comm (w : Nat) (op : Nat → Nat → Nat) (dst src n : Nat)
    (hdis : NoOverlap dst src (n * w)) (i j : Nat) (hi : i < n) (hj : j < n) (hij : i ≠ j)
    (z : Mem) :
    iteration w op dst src i (iteration w op dst src j z)
      = iteration w op dst src j (iteration w op dst src i z) := by
  have hin : i * w + w ≤ n * w := by
    have := Nat.mul_le_mul_right w (Nat.succ_le_of_lt hi)
    rwa [Nat.succ_mul] at this
  have hjn : j * w + w ≤ n * w := by
    have := Nat.mul_le_mul_right w (Nat.succ_le_of_lt hj)
    rwa [Nat.succ_mul] at this
  have hsep : i * w + w ≤ j * w ∨ j * w + w ≤ i * w := by
    rcases Nat.lt_or_gt_of_ne hij with h | h
    · left
      have := Nat.mul_le_mul_right w (Nat.succ_le_of_lt h)
      rwa [Nat.succ_mul] at this
    · right
      have := Nat.mul_le_mul_right w (Nat.succ_le_of_lt h)
      rwa [Nat.succ_mul] at this
  unfold NoOverlap at hdis
  unfold iteration writeElem readElem
  rw [loadLE_storeLE_disjoint z (dst + j * w) w _ (dst + i * w) w (by omega),
    loadLE_storeLE_disjoint z (dst + j * w) w _ (src + i * w) w (by omega),
    loadLE_storeLE_disjoint z (dst + i * w) w _ (dst + j * w) w (by omega),
    loadLE_storeLE_disjoint z (dst + i * w) w _ (src + j * w) w (by omega)]
  exact storeLE_comm z (dst + j * w) (dst + i * w) w _ _ (by omega)

/-- Any order that runs each of the `n` iterations once gives the result of
the in-order loop. -/
theorem runOrder_perm (w : Nat) (op : Nat → Nat → Nat) (dst src n : Nat)
    (hdis : NoOverlap dst src (n * w)) (order : List Nat)
    (hperm : order.Perm (List.range n)) (m : Mem) :
    runOrder order (iteration w op dst src) m = elementwise w op dst src n m := by
  rw [elementwise_eq_runOrder]
  unfold runOrder
  apply List.Perm.foldl_eq' hperm
  intro x hx y hy z
  have hx2 : x < n := List.mem_range.mp ((hperm.mem_iff).mp hx)
  have hy2 : y < n := List.mem_range.mp ((hperm.mem_iff).mp hy)
  by_cases hxy : x = y
  · rw [hxy]
  · exact iteration_comm w op dst src n hdis y x hy2 hx2 (fun h => hxy h.symm) z

/-- C14: in the kernel of every supported kind (`w` its element width, `op` its
element addition), iteration `i` writes only the bytes of element `i` of the
destination, and what it writes depends only on element `i` of the destination
and of the source; the in-order loop is what `sum` runs; and for
non-overlapping buffers, for every number of workers and every execution in
which each index is run exactly once, the final memory is that of `sum`. -/
theorem kernel_iterations_any_order (F : FloatUnit) (m : Mem) (dst src L : Nat)
    (T : DataType) (hT : T ∈ supportedKinds) :
    (∀ i m1 a, a < dst + i * T.kernelWidth ∨ dst + i * T.kernelWidth + T.kernelWidth ≤ a →
      iteration T.kernelWidth (T.kernelOp F) dst src i m1 a = m1 a)
    ∧ (∀ i m1 m2,
        (∀ a, dst + i * T.kernelWidth ≤ a → a < dst + i * T.kernelWidth + T.kernelWidth →
          m1 a = m2 a) →
        (∀ a, src + i * T.kernelWidth ≤ a → a < src + i * T.kernelWidth + T.kernelWidth →
          m1 a = m2 a) →
        ∀ a, dst + i * T.kernelWidth ≤ a → a < dst + i * T.kernelWidth + T.kernelWidth →
          iteration T.kernelWidth (T.kernelOp F) dst src i m1 a
            = iteration T.kernelWidth (T.kernelOp F) dst src i m2 a)
    ∧ (sum F m dst src L T).mem
        = runOrder (List.range (L / T.kernelWidth))
            (iteration T.kernelWidth (T.kernelOp F) dst src) m
    ∧ (NoOverlap dst src L →
        ∀ (threads : Nat) (s : Schedule threads (L / T.kernelWidth)),
          runOrder s.order (iteration T.kernelWidth (T.kernelOp F) dst src) m
            = (sum F m dst src L T).mem) := by
  have hsum := sum_supported F m dst src L T (supported_of_mem T hT)
  refine ⟨?_, ?_, ?_, ?_⟩
  · intro i m1 a h
    exact iteration_outside _ _ _ _ _ _ a h
  · intro i m1 m2 hd hs a h1 h2
    exact iteration_reads _ _ _ _ _ m1 m2 hd hs a h1 h2
  · rw [hsum]
    rfl
  · intro hdis threads s
    rw [hsum]
    exact runOrder_perm _ _ _ _ _ (hdis.mono (div_mul_kernelWidth_le L T)) s.order
      s.complete m

/-! ## Access bounds -/

theorem mem_elemOffsets (w i o : Nat) :
    o ∈ elemOffsets w i ↔ i * w ≤ o ∧ o < i * w + w := by
  unfold elemOffsets
  simp only [List.mem_map, List.mem_range]
  constructor
  · rintro ⟨k, hk, rfl⟩
    omega
  · intro h
    exact ⟨o - i * w, by omega, by omega⟩

theorem mem_iterationAccesses (w i : Nat) (acc : Access) :
    acc ∈ iterationAccesses w i
      ↔ (i * w ≤ acc.offset ∧ acc.offset < i * w + w)
        ∧ ¬ (acc.isWrite = true ∧ acc.buf = Buf.source) := by
  obtain ⟨wr, b, o⟩ := acc
  unfold iterationAccesses
  simp only [List.mem_append, List.mem_map, Access.mk.injEq, mem_elemOffsets]
  constructor
  · rintro ((⟨o2, h, h1, h2, rfl⟩ | ⟨o2, h, h1, h2, rfl⟩) | ⟨o2, h, h1, h2, rfl⟩) <;>
      subst h1 <;> subst h2 <;> simp [h]
  · rintro ⟨h, hn⟩
    cases wr <;> cases b
    · exact Or.inl (Or.inl ⟨o, h, rfl, rfl, rfl⟩)
    · exact Or.inl (Or.inr ⟨o, h, rfl, rfl, rfl⟩)
    · exact Or.inr ⟨o, h, rfl, rfl, rfl⟩
    · simp at hn

/-- The accesses of a loop of `n` iterations: every byte below `n * w` of
either buffer is read, and every such byte of the destination is written. -/
theorem mem_kernelAccesses (w n : Nat) (hw : 0 < w) (acc : Access) :
    acc ∈ kernelAccesses w n
      ↔ acc.offset < n * w ∧ ¬ (acc.isWrite = true ∧ acc.buf = Buf.source) := by
  unfold kernelAccesses
  simp only [List.mem_flatMap, List.mem_range, mem_iterationAccesses]
  constructor
  · rintro ⟨i, hi, ⟨h1, h2⟩, hn⟩
    have := Nat.mul_le_mul_right w (Nat.succ_le_of_lt hi)
    rw [Nat.succ_mul] at this
    exact ⟨by omega, hn⟩
  · rintro ⟨h, hn⟩
    refine ⟨acc.offset / w, ?_, ⟨?_, ?_⟩, hn⟩
    · exact (Nat.div_lt_iff_lt_mul hw).mpr h
    · exact Nat.div_mul_le_self _ _
    · have := Nat.div_add_mod acc.offset w
      have := Nat.mod_lt acc.offset hw
      have e : acc.offset / w * w = w * (acc.offset / w) := Nat.mul_comm _ _
      omega

/-- Two runs of the loop from memories that agree on the first `N` elements of
both buffers agree on those bytes after any `n ≤ N` iterations. -/
theorem elementwise_agree (w : Nat) (op : Nat → Nat → Nat) (dst src N : Nat) (m1 m2 : Mem)
    (h : ∀ a, (dst ≤ a ∧ a < dst + N * w) ∨ (src ≤ a ∧ a < src + N * w) → m1 a = m2 a) :
    ∀ n, n ≤ N → ∀ a, (dst ≤ a ∧ a < dst + N * w) ∨ (src ≤ a ∧ a < src + N * w) →
      elementwise w op dst src n m1 a = elementwise w op dst src n m2 a := by
  intro n
  induction n with
  | zero => intro _ a ha; exact h a ha
  | succ n ih =>
    intro hn a ha
    have hnw : n * w + w ≤ N * w := by
      have := Nat.mul_le_mul_right w hn
      rwa [Nat.succ_mul] at this
    have ih2 := ih (by omega)
    have hstep : ∀ m, elementwise w op dst src (n + 1) m
        = iteration w op dst src n (elementwise w op dst src n m) := by
      intro m
      unfold elementwise
      rw [forLoop_succ]
      rfl
    rw [hstep m1, hstep m2]
    by_cases hin : dst + n * w ≤ a ∧ a < dst + n * w + w
    · apply iteration_reads _ _ _ _ _ _ _ _ _ a hin.1 hin.2
      · intro b hb1 hb2
        exact ih2 b (Or.inl ⟨by omega, by omega⟩)
      · intro b hb1 hb2
        exact ih2 b (Or.inr ⟨by omega, by omega⟩)
    · rw [iteration_outside _ _ _ _ _ _ a (by omega),
        iteration_outside _ _ _ _ _ _ a (by omega)]
      exact ih2 a ha

/-- C16: for every supported kind, with `w` the element width of its kernel
(4, 8, 4, 1, 4, 1, 8 for float32, float64, float16, uint8, int32, int8, int64):
every byte access of `sum` is at an offset below `(L / w) * w`, hence below
`L`; when at least one element is processed, the byte at offset
`(L / w) * w - 1` is read in both buffers and written in the destination. The
access list accounts for the code: a byte it does not list as written keeps its
value, and the bytes written depend only on the bytes it lists as read. So
every byte outside the first `L` bytes of the destination is unchanged. -/
theorem sum_accesses_in_bounds (F : FloatUnit) (m : Mem) (dst src L : Nat)
    (T : DataType) (hT : T ∈ supportedKinds) :
    supportedKinds.map DataType.kernelWidth = [4, 8, 4, 1, 4, 1, 8]
    ∧ (∀ acc ∈ sumAccesses L T,
        acc.offset < L / T.kernelWidth * T.kernelWidth ∧ acc.offset < L)
    ∧ (0 < L / T.kernelWidth →
        Access.mk true Buf.destination (L / T.kernelWidth * T.kernelWidth - 1)
          ∈ sumAccesses L T
        ∧ Access.mk false Buf.destination (L / T.kernelWidth * T.kernelWidth - 1)
          ∈ sumAccesses L T
        ∧ Access.mk false Buf.source (L / T.kernelWidth * T.kernelWidth - 1)
          ∈ sumAccesses L T)
    ∧ (∀ a, (∀ acc ∈ sumAccesses L T, acc.isWrite = true → acc.addr dst src ≠ a) →
        (sum F m dst src L T).mem a = m a)
    ∧ (∀ m2 : Mem,
        (∀ acc ∈ sumAccesses L T, acc.isWrite = false →
          m (acc.addr dst src) = m2 (acc.addr dst src)) →
        ∀ acc ∈ sumAccesses L T, acc.isWrite = true →
          (sum F m dst src L T).mem (acc.addr dst src)
            = (sum F m2 dst src L T).mem (acc.addr dst src))
    ∧ (∀ a, a < dst ∨ dst + L ≤ a → (sum F m dst src L T).mem a = m a) := by
  have hsup := supported_of_mem T hT
  have hw := kernelWidth_pos T
  have hle := div_mul_kernelWidth_le L T
  have hacc : sumAccesses L T = kernelAccesses T.kernelWidth (L / T.kernelWidth) := by
    unfold sumAccesses
    rw [if_pos hsup]
  rw [hacc]
  refine ⟨rfl, ?_, ?_, ?_, ?_, ?_⟩
  · intro acc h
    have := ((mem_kernelAccesses _ _ hw acc).mp h).1
    omega
  · intro hn
    have hpos : 0 < L / T.kernelWidth * T.kernelWidth := Nat.mul_pos hn hw
    refine ⟨?_, ?_, ?_⟩ <;>
      exact (mem_kernelAccesses _ _ hw _).mpr ⟨by simp only []; omega, by simp⟩
  · intro a h
    apply sum_outside
    by_contra hc
    have h1 : dst ≤ a ∧ a < dst + L / T.kernelWidth * T.kernelWidth := by omega
    refine h (Access.mk true Buf.destination (a - dst)) ?_ rfl ?_
    · exact (mem_kernelAccesses _ _ hw _).mpr ⟨by simp only []; omega, by simp⟩
    · simp only [Access.addr]
      omega
  · intro m2 hagree acc h hwr
    rw [sum_supported F m dst src L T hsup, sum_supported F m2 dst src L T hsup]
    simp only [Outcome.mem]
    have hin := (mem_kernelAccesses _ _ hw acc).mp h
    apply elementwise_agree _ _ _ _ (L / T.kernelWidth) m m2 ?_ _ (Nat.le_refl _)
    · left
      obtain ⟨wr, b, o⟩ := acc
      cases b
      · simp only [Access.addr]
        exact ⟨by omega, by simpa using hin.1⟩
      · exact absurd ⟨hwr, rfl⟩ hin.2
    · intro a ha
      rcases ha with ha | ha
      · have := hagree (Access.mk false Buf.destination (a - dst))
          ((mem_kernelAccesses _ _ hw _).mpr ⟨by simp only []; omega, by simp⟩) rfl
        simp only [Access.addr] at this
        rwa [show dst + (a - dst) = a by omega] at this
      · have := hagree (Access.mk false Buf.source (a - src))
          ((mem_kernelAccesses _ _ hw _).mpr ⟨by simp only []; omega, by simp⟩) rfl
        simp only [Access.addr] at this
        rwa [show src + (a - src) = a by omega] at this
  · intro a h
    apply sum_outside
    omega

theorem sum_accesses_in_bounds_witness :
    DataType.BYTEPS_FLOAT16 ∈ supportedKinds
    ∧ (∀ acc ∈ sumAccesses 7 DataType.BYTEPS_FLOAT16,
        acc.offset < 7 / DataType.kernelWidth DataType.BYTEPS_FLOAT16
            * DataType.kernelWidth DataType.BYTEPS_FLOAT16
        ∧ acc.offset < 7)
    ∧ (sumAccesses 7 DataType.BYTEPS_FLOAT16).map (fun acc => acc.offset)
        = [0, 1, 2, 3, 0, 1, 2, 3, 0, 1, 2, 3] :=
  ⟨by decide,
    (sum_accesses_in_bounds ieee754 (memOfList [1, 2, 3]) 0 7 7 DataType.BYTEPS_FLOAT16
      (by decide)).2.1,
    by decide⟩

theorem kernel_iterations_any_order_witness :
    DataType.BYTEPS_INT32 ∈ supportedKinds
    ∧ NoOverlap 0 16 16
    ∧ runOrder [2, 0, 3, 1]
        (iteration (DataType.kernelWidth DataType.BYTEPS_INT32)
          (DataType.kernelOp ieee754 DataType.BYTEPS_INT32) 0 16)
        (memOfElems 4 [1, 2, 3, 4, 10, 20, 30, 40])
      = (sum ieee754 (memOfElems 4 [1, 2, 3, 4, 10, 20, 30, 40]) 0 16 16
          DataType.BYTEPS_INT32).mem
    ∧ readElems 4
        (runOrder [2, 0, 3, 1]
          (iteration (DataType.kernelWidth DataType.BYTEPS_INT32)
            (DataType.kernelOp ieee754 DataType.BYTEPS_INT32) 0 16)
          (memOfElems 4 [1, 2, 3, 4, 10, 20, 30, 40])) 0 4
      = [11, 22, 33, 44] :=
  ⟨by decide, by decide,
    (kernel_iterations_any_order ieee754 (memOfElems 4 [1, 2, 3, 4, 10, 20, 30, 40]) 0 16 16
      DataType.BYTEPS_INT32 (by decide)).2.2.2 (by decide) 2
      ⟨[2, 0, 3, 1], fun i => i % 2, by decide, fun i _ => Nat.mod_lt i (by decide)⟩,
    by decide⟩

/-! ## Accumulation order -/

theorem loadLE_inj (m1 m2 : Mem) : ∀ (w p : Nat), loadLE m1 p w = loadLE m2 p w →
    ∀ k, k < w → m1 (p + k) = m2 (p + k) := by
  intro w
  induction w with
  | zero => intro p _ k hk; omega
  | succ w ih =>
    intro p h k hk
    simp only [loadLE] at h
    have h1 : (m1 p).val < 256 := (m1 p).isLt
    have h2 : (m2 p).val < 256 := (m2 p).isLt
    cases k with
    | zero =>
      rw [Nat.add_zero]
      exact Fin.ext (by omega)
    | succ k =>
      have := ih (p + 1) (by omega) k (by omega)
      rwa [show p + 1 + k = p + (k + 1) by omega] at this

theorem addSigned_right_comm (bits : Nat) (hb : 1 ≤ bits) (a b c : Nat) :
    addSigned bits (addSigned bits a b) c = addSigned bits (addSigned bits a c) b := by
  have hab := (toSigned_addSigned bits hb a b).2.2.1
  have hac := (toSigned_addSigned bits hb a c).2.2.1
  have key : (toSigned bits (addSigned bits a b) + toSigned bits c) % 2 ^ bits
      = (toSigned bits (addSigned bits a c) + toSigned bits b) % 2 ^ bits := by
    rw [Int.add_emod, hab, ← Int.add_emod, Int.add_emod (toSigned bits (addSigned bits a c)),
      hac, ← Int.add_emod]
    congr 1
    ring
  show ofSigned bits _ = ofSigned bits _
  unfold ofSigned
  rw [key]

theorem kernelOp_right_comm (F : FloatUnit) (T : DataType) (hT : T ∈ integerKinds)
    (a b c : Nat) :
    T.kernelOp F (T.kernelOp F a b) c = T.kernelOp F (T.kernelOp F a c) b := by
  cases T <;> simp [integerKinds] at hT
  · simp only [DataType.kernelOp, addUInt8]
    omega
  · exact addSigned_right_comm 32 (by decide) a b c
  · exact addSigned_right_comm 8 (by decide) a b c
  · exact addSigned_right_comm 64 (by decide) a b c

theorem supported_of_integer (T : DataType) (hT : T ∈ integerKinds) : T.supported = true := by
  cases T <;> simp [integerKinds, DataType.supported] at hT ⊢

/-- Element `i` of `A` after reducing `B` and then `C` into it. -/
theorem sum_twice_elem (F : FloatUnit) (m : Mem) (A B C L : Nat) (T : DataType)
    (hT : T.supported = true) (hAB : NoOverlap A B L) (hAC : NoOverlap A C L)
    (i : Nat) (hi : i < L / T.kernelWidth) :
    readElem T.kernelWidth (sum F (sum F m A B L T).mem A C L T).mem A i
      = T.kernelOp F
          (T.kernelOp F (readElem T.kernelWidth m A i) (readElem T.kernelWidth m B i))
          (readElem T.kernelWidth m C i) := by
  rw [sum_elem F _ A C L T hT hAC i hi, sum_elem F m A B L T hT hAB i hi]
  congr 1
  unfold readElem
  apply loadLE_congr
  intro a ha hb
  apply sum_outside
  have hle := div_mul_kernelWidth_le L T
  have hiw : i * T.kernelWidth + T.kernelWidth ≤ L / T.kernelWidth * T.kernelWidth := by
    have := Nat.mul_le_mul_right T.kernelWidth (Nat.succ_le_of_lt hi)
    rwa [Nat.succ_mul] at this
  unfold NoOverlap at hAC
  omega

/-- C19: for each integer kind, every length and buffers `B` and `C` that do
not overlap `A`, reducing `B` and then `C` into `A` leaves the same memory
(the same contents of `A`, and everything else untouched) as reducing `C` and
then `B` into `A`; both calls return success each time. -/
theorem sum_integer_order_independent (F : FloatUnit) (m : Mem) (A B C L : Nat)
    (T : DataType) (hT : T ∈ integerKinds)
    (hAB : NoOverlap A B L) (hAC : NoOverlap A C L) :
    (sum F (sum F m A B L T).mem A C L T).mem = (sum F (sum F m A C L T).mem A B L T).mem
    ∧ (sum F m A B L T).status = some 0
    ∧ (sum F (sum F m A B L T).mem A C L T).status = some 0
    ∧ (sum F m A C L T).status = some 0
    ∧ (sum F (sum F m A C L T).mem A B L T).status = some 0 := by
  have hsup := supported_of_integer T hT
  have hw := kernelWidth_pos T
  have hst : ∀ m2 X Y, (sum F m2 X Y L T).status = some 0 := by
    intro m2 X Y
    rw [sum_supported F m2 X Y L T hsup]
    rfl
  refine ⟨?_, hst _ _ _, hst _ _ _, hst _ _ _, hst _ _ _⟩
  funext a
  by_cases hin : A ≤ a ∧ a < A + L / T.kernelWidth * T.kernelWidth
  · have hi : (a - A) / T.kernelWidth < L / T.kernelWidth :=
      (Nat.div_lt_iff_lt_mul hw).mpr (by omega)
    have hel : readElem T.kernelWidth (sum F (sum F m A B L T).mem A C L T).mem A
          ((a - A) / T.kernelWidth)
        = readElem T.kernelWidth (sum F (sum F m A C L T).mem A B L T).mem A
          ((a - A) / T.kernelWidth) := by
      rw [sum_twice_elem F m A B C L T hsup hAB hAC _ hi,
        sum_twice_elem F m A C B L T hsup hAC hAB _ hi]
      exact kernelOp_right_comm F T hT _ _ _
    have hb := loadLE_inj _ _ T.kernelWidth _ hel ((a - A) % T.kernelWidth)
      (Nat.mod_lt _ hw)
    have hdm := Nat.div_add_mod (a - A) T.kernelWidth
    have e : (a - A) / T.kernelWidth * T.kernelWidth
        = T.kernelWidth * ((a - A) / T.kernelWidth) := Nat.mul_comm _ _
    rwa [show A + (a - A) / T.kernelWidth * T.kernelWidth + (a - A) % T.kernelWidth = a
      by omega] at hb
  · rw [sum_outside F _ A C L T a (by omega), sum_outside F m A B L T a (by omega),
      sum_outside F _ A B L T a (by omega), sum_outside F m A C L T a (by omega)]

theorem sum_integer_order_independent_witness :
    DataType.BYTEPS_INT32 ∈ integerKinds ∧ NoOverlap 0 4 4 ∧ NoOverlap 0 8 4
    ∧ (sum ieee754 (sum ieee754 (memOfElems 4 [0x7FFFFFFF, 1, 0xFFFFFFFF]) 0 4 4
          DataType.BYTEPS_INT32).mem 0 8 4 DataType.BYTEPS_INT32).mem
      = (sum ieee754 (sum ieee754 (memOfElems 4 [0x7FFFFFFF, 1, 0xFFFFFFFF]) 0 8 4
          DataType.BYTEPS_INT32).mem 0 4 4 DataType.BYTEPS_INT32).mem
    ∧ readElem 4
        (sum ieee754 (sum ieee754 (memOfElems 4 [0x7FFFFFFF, 1, 0xFFFFFFFF]) 0 4 4
          DataType.BYTEPS_INT32).mem 0 8 4 DataType.BYTEPS_INT32).mem 0 0
      = 0x7FFFFFFF :=
  ⟨by decide, by decide, by decide,
    (sum_integer_order_independent ieee754 (memOfElems 4 [0x7FFFFFFF, 1, 0xFFFFFFFF])
      0 4 8 4 DataType.BYTEPS_INT32 (by decide) (by decide) (by decide)).1,
    by decide⟩

end CpuReducer
